import Mathlib

/- Verification development for the label-format validation and repair engine of
   label_format_fix.py (functions fix_label_format, fix_all_labels and
   verify_fixed_format). File contents are modelled as lists of characters;
   Python float values are modelled as exact rational numbers built with mkRat. -/

namespace LabelFix

/-- Python whitespace set used by str.strip and str.split: space, tab, newline,
carriage return, vertical tab, form feed. -/
def pyWs (c : Char) : Bool :=
  c = ' ' || c = '\t' || c = '\n' || c = '\r' || c = '\x0B' || c = '\x0C'

/-- Python str.strip: drop leading and trailing whitespace. -/
def pyStrip (s : List Char) : List Char :=
  ((s.dropWhile pyWs).reverse.dropWhile pyWs).reverse

/-- Python split on one newline character: splits at every newline, keeping empty
segments, as Python str.split with an explicit separator does. -/
def pySplitNl : List Char → List (List Char)
  | [] => [[]]
  | c :: cs =>
    if c = '\n' then [] :: pySplitNl cs
    else
      match pySplitNl cs with
      | r :: rs => (c :: r) :: rs
      | [] => [[c]]

/-- Helper for pySplitWs; the accumulator holds the pending token in reverse. -/
def splitWsAux : List Char → List Char → List (List Char)
  | [], acc => if acc = [] then [] else [acc.reverse]
  | c :: cs, acc =>
    if pyWs c then
      if acc = [] then splitWsAux cs [] else acc.reverse :: splitWsAux cs []
    else splitWsAux cs (c :: acc)

/-- Python str.split with no separator: split on runs of whitespace, producing no
empty tokens. -/
def pySplitWs (s : List Char) : List (List Char) :=
  splitWsAux s []

/-- Python replace of the literal two-character backslash-n sequence by a real
newline character, scanning left to right (source line 32). -/
def pyReplaceEscNl : List Char → List Char
  | [] => []
  | [c] => [c]
  | c :: d :: rest =>
    if c = '\\' && d = 'n' then '\n' :: pyReplaceEscNl rest
    else c :: pyReplaceEscNl (d :: rest)

/-- Helper for pyReadlines; the accumulator holds the current line in reverse. -/
def readlinesAux : List Char → List Char → List (List Char)
  | [], acc => if acc = [] then [] else [acc.reverse]
  | c :: cs, acc =>
    if c = '\n' then (acc.reverse ++ ['\n']) :: readlinesAux cs []
    else readlinesAux cs (c :: acc)

/-- Python f.readlines: cut the content after every newline character, keeping the
newline at the end of each line; an empty content gives no lines. -/
def pyReadlines (s : List Char) : List (List Char) :=
  readlinesAux s []

/-- Ascii decimal digit predicate; this models the digits accepted by Python int
and float literals (unicode digit characters are not modelled). -/
def isDig (c : Char) : Bool :=
  c = '0' || c = '1' || c = '2' || c = '3' || c = '4' ||
  c = '5' || c = '6' || c = '7' || c = '8' || c = '9'

/-- Character of one decimal digit. -/
def digitChar (d : Nat) : Char :=
  Char.ofNat (48 + d)

/-- Numeric value of one decimal digit character. -/
def digitVal (c : Char) : Nat :=
  c.toNat - 48

/-- Little-endian decimal digits of the second argument; the first argument is fuel
(the number itself suffices). -/
def natDigitsAux : Nat → Nat → List Nat
  | 0, _ => []
  | _ + 1, 0 => []
  | fuel + 1, n + 1 => ((n + 1) % 10) :: natDigitsAux fuel ((n + 1) / 10)

/-- Python str of a natural number. -/
def natToChars (n : Nat) : List Char :=
  if n = 0 then ['0'] else ((natDigitsAux n n).map digitChar).reverse

/-- Python str of an integer. -/
def intToChars (k : Int) : List Char :=
  if k < 0 then '-' :: natToChars (-k).toNat else natToChars k.toNat

/-- Value of a big-endian string of decimal digit characters. -/
def digitsVal (s : List Char) : Nat :=
  s.foldl (fun a c => 10 * a + digitVal c) 0

/-- Python int(token) on a whitespace-free token: an optional sign followed by
decimal digits. (Python additionally allows underscore separators between digits;
such tokens are modelled as parse failures.) -/
def parseIntTok (s : List Char) : Option Int :=
  match s with
  | [] => none
  | c :: rest =>
    if c = '-' then
      if rest ≠ [] ∧ rest.all isDig then some (-(digitsVal rest : Int)) else none
    else if c = '+' then
      if rest ≠ [] ∧ rest.all isDig then some ((digitsVal rest : Int)) else none
    else if (c :: rest).all isDig then some ((digitsVal (c :: rest) : Int)) else none

/-- Split a token at its first decimal point, if any. -/
def splitAtDot : List Char → List Char × Option (List Char)
  | [] => ([], none)
  | c :: cs =>
    if c = '.' then ([], some cs)
    else
      let r := splitAtDot cs
      (c :: r.1, r.2)

/-- Split a token at its first exponent marker (e or E), if any. -/
def splitAtExp : List Char → List Char × Option (List Char)
  | [] => ([], none)
  | c :: cs =>
    if c = 'e' || c = 'E' then ([], some cs)
    else
      let r := splitAtExp cs
      (c :: r.1, r.2)

/-- Mantissa of a Python float literal: digits with an optional decimal point and
at least one digit overall; the value is an exact rational. -/
def parseMant (s : List Char) : Option ℚ :=
  match splitAtDot s with
  | (ip, none) =>
    if ip ≠ [] ∧ ip.all isDig then some ((digitsVal ip : ℚ)) else none
  | (ip, some fp) =>
    if (ip ≠ [] ∨ fp ≠ []) ∧ ip.all isDig ∧ fp.all isDig then
      some (mkRat (digitsVal ip * 10 ^ fp.length + digitsVal fp) (10 ^ fp.length))
    else none

/-- Exact scaling by a power of ten, for the exponent part of a float literal. -/
def applyExp (q : ℚ) (z : Int) : ℚ :=
  if 0 ≤ z then mkRat (q.num * 10 ^ z.toNat) q.den
  else mkRat q.num (q.den * 10 ^ (-z).toNat)

/-- Unsigned Python float literal: a mantissa with an optional exponent part. -/
def parseUFloat (s : List Char) : Option ℚ :=
  match splitAtExp s with
  | (m, none) => parseMant m
  | (m, some es) =>
    match parseMant m, parseIntTok es with
    | some q, some z => some (applyExp q z)
    | _, _ => none

/-- Python float(token) on a whitespace-free token, as an exact rational. (Python
additionally accepts inf, infinity and nan, whose values always fail the closed
range check of the engine, and underscore digit separators; both are modelled as
parse failures, giving the same per-line outcome.) -/
def parseFloatTok (s : List Char) : Option ℚ :=
  match s with
  | [] => none
  | c :: rest =>
    if c = '-' then (parseUFloat rest).map (fun q => -q)
    else if c = '+' then parseUFloat rest
    else parseUFloat (c :: rest)

/-- Parse every coordinate token as a float; fails when any token fails, as the
Python list comprehension raises ValueError (source lines 45 and 57). -/
def parseFloats : List (List Char) → Option (List ℚ)
  | [] => some []
  | t :: ts =>
    match parseFloatTok t, parseFloats ts with
    | some q, some qs => some (q :: qs)
    | _, _ => none

/-- Half-even rounding of q times ten to the sixth, computed on the numerator and
denominator with integer operations; this is the rounding of Python percent .6f
formatting on the exact value being printed. -/
def roundHE6 (q : ℚ) : Int :=
  let a : Int := q.num * 1000000
  let b : Int := (q.den : Int)
  let f : Int := a / b
  let r : Int := a % b
  if 2 * r < b then f
  else if b < 2 * r then f + 1
  else if f % 2 = 0 then f else f + 1

/-- Left-pad a digit string with zeros to the given width. -/
def padZeros (w : Nat) (s : List Char) : List Char :=
  List.replicate (w - s.length) '0' ++ s

/-- Python format spec .6f applied to a nonnegative rational: integer part, a
decimal point, then exactly six fractional digits. -/
def fmt6 (q : ℚ) : List Char :=
  let n : Nat := (roundHE6 q).toNat
  natToChars (n / 1000000) ++ '.' :: padZeros 6 (natToChars (n % 1000000))

/-- Serialization of one accepted line (source lines 49 and 62-63): the class id as
a plain integer token, then each coordinate formatted with fmt6, space-separated;
the box branch lists its four coordinates and the polygon branch joins the
coordinate list, producing the same shape. -/
def renderLine (k : Int) (cs : List ℚ) : List Char :=
  intToChars k ++ (cs.map (fun c => ' ' :: fmt6 c)).flatten

/-- Per-line repair step of fix_label_format (source lines 34-65): strip, skip
blank, tokenize; a 5-token line is parsed as a box, an odd token count of at least
7 as a polygon; the class id must parse as an integer in 0..39 and every
coordinate as a float in the closed interval 0..1; every other line is discarded. -/
def processLine (line : List Char) : Option (List Char) :=
  let l := pyStrip line
  if l = [] then none
  else
    let parts := pySplitWs l
    if parts.length = 5 then
      match parts with
      | p0 :: coordToks =>
        match parseIntTok p0, parseFloats coordToks with
        | some k, some cs =>
          if 0 ≤ k ∧ k ≤ 39 ∧ ∀ c ∈ cs, 0 ≤ c ∧ c ≤ 1 then some (renderLine k cs)
          else none
        | _, _ => none
      | [] => none
    else if 7 ≤ parts.length ∧ parts.length % 2 = 1 then
      match parts with
      | p0 :: coordToks =>
        match parseIntTok p0, parseFloats coordToks with
        | some k, some cs =>
          if 0 ≤ k ∧ k ≤ 39 ∧ ∀ c ∈ cs, 0 ≤ c ∧ c ≤ 1 then some (renderLine k cs)
          else none
        | _, _ => none
      | [] => none
    else none

/-- Newline join of the accepted lines (Python newline join). -/
def joinNl : List (List Char) → List Char
  | [] => []
  | [l] => l
  | l :: ls => l ++ '\n' :: joinNl ls

/-- Accepted lines of the repair pass (source lines 29-65): the stripped content
has literal backslash-n sequences replaced by real newlines, is split on real
newlines, and every segment goes through processLine. -/
def repairLines (raw : List Char) : List (List Char) :=
  (pySplitNl (pyReplaceEscNl (pyStrip raw))).filterMap processLine

/-- Content written back when at least one line is accepted (source line 70): the
accepted lines joined with single newlines plus one trailing newline. -/
def renderFile (ls : List (List Char)) : List Char :=
  joinNl ls ++ ['\n']

inductive FileClass where
  | empty
  | wellFormed
  | malformed
deriving DecidableEq

/-- Classification of a label file from its raw content (source lines 14-25): empty
iff the stripped content is empty; well formed iff the stripped content has more
than one newline-delimited segment and the first segment has a recognized token
count (exactly 5, or odd and at least 7); otherwise malformed. -/
def classify (raw : List Char) : FileClass :=
  let content := pyStrip raw
  if content = [] then .empty
  else
    let lines := pySplitNl content
    let firstParts := pySplitWs (pyStrip (lines.headD []))
    if 1 < lines.length ∧
        (firstParts.length = 5 ∨ (7 ≤ firstParts.length ∧ firstParts.length % 2 = 1)) then
      .wellFormed
    else .malformed

inductive RepairOutcome where
  | emptyFile
  | noValidFound
  | fixed (n : Nat)
deriving DecidableEq

/-- Repair applied to one file (source lines 14-17 and 27-73, without the
already-correct early return, which belongs to classify): whether the file was
written, the resulting on-disk content (unchanged if no write happens), and the
outcome. -/
def repairRun (raw : List Char) : Bool × List Char × RepairOutcome :=
  if pyStrip raw = [] then (false, raw, .emptyFile)
  else
    let ls := repairLines raw
    if ls = [] then (false, raw, .noValidFound)
    else (true, renderFile ls, .fixed ls.length)

/-- On-disk content after one repair application. -/
def repairText (raw : List Char) : List Char :=
  (repairRun raw).2.1

inductive FixOutcome where
  | emptyFile
  | alreadyCorrect
  | noValidFound
  | fixed (n : Nat)
deriving DecidableEq

/-- Full fix_label_format on one readable file (source lines 12-73): wrote flag,
resulting on-disk content and outcome. -/
def fixLabelFormat (raw : List Char) : Bool × List Char × FixOutcome :=
  match classify raw with
  | .empty => (false, raw, .emptyFile)
  | .wellFormed => (false, raw, .alreadyCorrect)
  | .malformed =>
    let ls := repairLines raw
    if ls = [] then (false, raw, .noValidFound)
    else (true, renderFile ls, .fixed ls.length)

/-- Success flag and message string returned by fix_label_format (source lines 17,
25, 71 and 73). -/
def fixResult (raw : List Char) : Bool × List Char :=
  match (fixLabelFormat raw).2.2 with
  | .emptyFile => (false, "Empty file".data)
  | .alreadyCorrect => (true, "Already correct format".data)
  | .fixed n => (true, "Fixed ".data ++ natToChars n ++ " annotations".data)
  | .noValidFound => (false, "No valid annotations found".data)

/-- Does the first list start the second one? -/
def startsWithChars : List Char → List Char → Bool
  | [], _ => true
  | _ :: _, [] => false
  | p :: ps, c :: cs => p = c && startsWithChars ps cs

/-- Substring check: the Python in operator on strings. -/
def containsSub (pat : List Char) : List Char → Bool
  | [] => startsWithChars pat []
  | c :: cs => startsWithChars pat (c :: cs) || containsSub pat cs

inductive StatBucket where
  | fixed
  | alreadyCorrect
  | empty
  | errors
deriving DecidableEq

/-- Counter bucket chosen by fix_all_labels from the result pair of
fix_label_format for one processed file (source lines 108-123). -/
def bucketOf (success : Bool) (msg : List Char) : StatBucket :=
  if success then
    if containsSub "Already correct".data msg then .alreadyCorrect else .fixed
  else
    if containsSub "Empty file".data msg then .empty else .errors

/-- Input of the walk for one file: readable content, or the text of the exception
raised during read or parse. -/
inductive FileInput where
  | readable (raw : List Char)
  | unreadable (e : List Char)

/-- Result pair seen by fix_all_labels for one file: the fix_label_format pair for
a readable file, or the exception pair of source line 76. -/
def fileResult : FileInput → Bool × List Char
  | .readable raw => fixResult raw
  | .unreadable e => (false, "Error: ".data ++ e)

/-- Bucket of one file in the directory-walk aggregation. -/
def fileBucket (f : FileInput) : StatBucket :=
  bucketOf (fileResult f).1 (fileResult f).2

/-- Per-file loop of verify_fixed_format (source lines 163-203): file_valid flag
and object, box and polygon counts, stopping at the first failing line as the
source break does. -/
def verifyLines : List (List Char) → Bool → Nat → Nat → Nat → Bool × Nat × Nat × Nat
  | [], v, o, b, p => (v, o, b, p)
  | l :: ls, v, o, b, p =>
    let s := pyStrip l
    if s = [] then verifyLines ls v o b p
    else
      let parts := pySplitWs s
      if parts.length = 5 then
        match parts with
        | p0 :: coordToks =>
          match parseIntTok p0, parseFloats coordToks with
          | some k, some cs =>
            if ¬(0 ≤ k ∧ k ≤ 39) ∨ ¬(∀ c ∈ cs, 0 ≤ c ∧ c ≤ 1) then (false, o, b, p)
            else verifyLines ls v (o + 1) (b + 1) p
          | _, _ => (false, o, b, p)
        | [] => (false, o, b, p)
      else if 7 ≤ parts.length ∧ parts.length % 2 = 1 then
        match parts with
        | p0 :: coordToks =>
          match parseIntTok p0, parseFloats coordToks with
          | some k, some cs =>
            if ¬(0 ≤ k ∧ k ≤ 39) ∨ ¬(∀ c ∈ cs, 0 ≤ c ∧ c ≤ 1) then (false, o, b, p)
            else verifyLines ls v (o + 1) b (p + 1)
          | _, _ => (false, o, b, p)
        | [] => (false, o, b, p)
      else (false, o, b, p)

/-- verify_fixed_format applied to one readable file content (source lines
155-207): none when readlines gives no lines (the file is skipped), otherwise the
final file_valid flag and counts. -/
def verifyFile (content : List Char) : Option (Bool × Nat × Nat × Nat) :=
  let lines := pyReadlines content
  if lines = [] then none
  else some (verifyLines lines true 0 0 0)

/-- Validity reported per file by verify_fixed_format (source line 205): the
file_valid flag together with a positive object count. -/
def fileValidOf (r : Bool × Nat × Nat × Nat) : Bool :=
  r.1 && decide (0 < r.2.1)

/-- Token list of one line as the engine sees it. -/
def lineTokens (l : List Char) : List (List Char) :=
  pySplitWs (pyStrip l)

/-- Spec-side acceptance condition on a token list, written from the claims: the
first token parses as an integer in 0..39 and every later token parses as a float
in the closed interval 0..1. -/
def acceptToks (toks : List (List Char)) : Bool :=
  match toks with
  | [] => false
  | t0 :: rest =>
    (match parseIntTok t0 with
     | some k => decide (0 ≤ k) && decide (k ≤ 39)
     | none => false)
    && rest.all (fun t =>
        match parseFloatTok t with
        | some q => decide (0 ≤ q) && decide (q ≤ 1)
        | none => false)

/-- Lines with content after stripping. -/
def countNonBlank (ls : List (List Char)) : Nat :=
  ls.countP (fun l => !(pyStrip l).isEmpty)

/-- Accepted box lines: non-blank, five tokens, accepted by the repair rule. -/
def countBoxAcc (ls : List (List Char)) : Nat :=
  ls.countP (fun l =>
    !(pyStrip l).isEmpty && (lineTokens l).length == 5 && (processLine l).isSome)

/-- Accepted polygon lines: non-blank, odd token count of at least 7, accepted by
the repair rule. -/
def countPolyAcc (ls : List (List Char)) : Nat :=
  ls.countP (fun l =>
    !(pyStrip l).isEmpty && decide (7 ≤ (lineTokens l).length) &&
      (lineTokens l).length % 2 == 1 && (processLine l).isSome)

/-! Character facts. -/

theorem isDig_cases (c : Char) (h : isDig c = true) :
    c = '0' ∨ c = '1' ∨ c = '2' ∨ c = '3' ∨ c = '4' ∨
    c = '5' ∨ c = '6' ∨ c = '7' ∨ c = '8' ∨ c = '9' := by
  simp only [isDig, Bool.or_eq_true, decide_eq_true_eq] at h
  tauto

theorem isDig_facts (c : Char) (h : isDig c = true) :
    pyWs c = false ∧ c ≠ '\\' ∧ c ≠ '\n' ∧ c ≠ '.' ∧ c ≠ '-' ∧ c ≠ '+' ∧
    c ≠ 'e' ∧ c ≠ 'E' := by
  rcases isDig_cases c h with h' | h' | h' | h' | h' | h' | h' | h' | h' | h' <;>
    subst h' <;> decide

theorem digitChar_isDig (d : Nat) (h : d < 10) : isDig (digitChar d) = true := by
  interval_cases d <;> decide

theorem digitVal_digitChar (d : Nat) (h : d < 10) : digitVal (digitChar d) = d := by
  interval_cases d <;> decide

/-! Decimal digit string lemmas. -/

/-- Little-endian value of a digit list. -/
def ofLE : List Nat → Nat
  | [] => 0
  | d :: ds => d + 10 * ofLE ds

theorem natDigitsAux_val : ∀ fuel n, n ≤ fuel → ofLE (natDigitsAux fuel n) = n := by
  intro fuel
  induction fuel with
  | zero => intro n h; interval_cases n; rfl
  | succ f ih =>
    intro n h
    match n with
    | 0 => rfl
    | m + 1 =>
      have hdiv : (m + 1) / 10 ≤ f := by
        have := Nat.div_lt_self (Nat.succ_pos m) (by norm_num : 1 < 10)
        omega
      simp only [natDigitsAux, ofLE, ih _ hdiv]
      omega

theorem natDigitsAux_lt10 : ∀ fuel n, ∀ d ∈ natDigitsAux fuel n, d < 10 := by
  intro fuel
  induction fuel with
  | zero => intro n d hd; simp [natDigitsAux] at hd
  | succ f ih =>
    intro n d hd
    match n with
    | 0 => simp [natDigitsAux] at hd
    | m + 1 =>
      simp only [natDigitsAux, List.mem_cons] at hd
      rcases hd with h | h
      · omega
      · exact ih _ _ h

theorem natDigitsAux_ne_nil (fuel n : Nat) (h1 : 1 ≤ n) (h2 : n ≤ fuel) :
    natDigitsAux fuel n ≠ [] := by
  match fuel, n with
  | 0, n => omega
  | f + 1, 0 => omega
  | f + 1, m + 1 => simp [natDigitsAux]

theorem natDigitsAux_len : ∀ k fuel n, n ≤ fuel → n < 10 ^ k →
    (natDigitsAux fuel n).length ≤ k := by
  intro k
  induction k with
  | zero =>
    intro fuel n h hk
    interval_cases n
    match fuel with
    | 0 => simp [natDigitsAux]
    | f + 1 => simp [natDigitsAux]
  | succ k ih =>
    intro fuel n h hk
    match fuel, n with
    | 0, n => interval_cases n; simp [natDigitsAux]
    | f + 1, 0 => simp [natDigitsAux]
    | f + 1, m + 1 =>
      simp only [natDigitsAux, List.length_cons]
      have hdiv : (m + 1) / 10 ≤ f := by
        have := Nat.div_lt_self (Nat.succ_pos m) (by norm_num : 1 < 10)
        omega
      have hlt : (m + 1) / 10 < 10 ^ k := by
        have h10 : m + 1 < 10 * 10 ^ k := by
          calc m + 1 < 10 ^ (k + 1) := hk
          _ = 10 * 10 ^ k := by ring
        exact Nat.div_lt_of_lt_mul (by omega)
      have := ih f ((m + 1) / 10) hdiv hlt
      omega

/-- Value of a digit string continued from an initial accumulator. -/
def valAux (i : Nat) (s : List Char) : Nat :=
  s.foldl (fun a c => 10 * a + digitVal c) i

theorem digitsVal_eq_valAux (s : List Char) : digitsVal s = valAux 0 s := rfl

theorem valAux_append (i : Nat) (a b : List Char) :
    valAux i (a ++ b) = valAux (valAux i a) b := by
  simp [valAux, List.foldl_append]

theorem valAux_replicate_zero : ∀ k, valAux 0 (List.replicate k '0') = 0 := by
  intro k
  induction k with
  | zero => rfl
  | succ k ih => simpa [valAux, List.replicate_succ, List.foldl_cons, digitVal] using ih

theorem digitsVal_natToChars (n : Nat) : digitsVal (natToChars n) = n := by
  by_cases h : n = 0
  · subst h; decide
  · simp only [natToChars, if_neg h, digitsVal]
    rw [List.foldl_reverse]
    have key : ∀ ds : List Nat, (∀ d ∈ ds, d < 10) →
        List.foldr (fun c a => 10 * a + digitVal c) 0 (ds.map digitChar) = ofLE ds := by
      intro ds
      induction ds with
      | nil => intro _; rfl
      | cons d ds ih =>
        intro hds
        simp only [List.map_cons, List.foldr_cons, ih (fun x hx => hds x (List.mem_cons_of_mem _ hx))]
        rw [digitVal_digitChar d (hds d (List.mem_cons_self _ _))]
        simp [ofLE]; omega
    have := key (natDigitsAux n n) (natDigitsAux_lt10 n n)
    calc List.foldr (fun c a => 10 * a + digitVal c) 0 ((natDigitsAux n n).map digitChar)
        = ofLE (natDigitsAux n n) := this
      _ = n := natDigitsAux_val n n le_rfl

theorem natToChars_ne_nil (n : Nat) : natToChars n ≠ [] := by
  by_cases h : n = 0
  · subst h; decide
  · simp only [natToChars, if_neg h]
    intro hc
    rw [List.reverse_eq_nil_iff, List.map_eq_nil_iff] at hc
    exact natDigitsAux_ne_nil n n (by omega) le_rfl hc

theorem natToChars_all_isDig (n : Nat) : ∀ c ∈ natToChars n, isDig c = true := by
  by_cases h : n = 0
  · subst h; decide
  · simp only [natToChars, if_neg h]
    intro c hc
    rw [List.mem_reverse, List.mem_map] at hc
    obtain ⟨d, hd, rfl⟩ := hc
    exact digitChar_isDig d (natDigitsAux_lt10 n n d hd)

theorem natToChars_len (n k : Nat) (h1 : 1 ≤ k) (h : n < 10 ^ k) :
    (natToChars n).length ≤ k := by
  by_cases h0 : n = 0
  · subst h0; simpa [natToChars] using h1
  · simp only [natToChars, if_neg h0, List.length_reverse, List.length_map]
    exact natDigitsAux_len k n n le_rfl h

theorem padZeros_len (w : Nat) (s : List Char) (h : s.length ≤ w) :
    (padZeros w s).length = w := by
  simp [padZeros]; omega

theorem padZeros_all_isDig (w : Nat) (s : List Char) (h : ∀ c ∈ s, isDig c = true) :
    ∀ c ∈ padZeros w s, isDig c = true := by
  intro c hc
  simp only [padZeros, List.mem_append, List.mem_replicate] at hc
  rcases hc with ⟨_, rfl⟩ | hc
  · decide
  · exact h c hc

theorem digitsVal_padZeros (w : Nat) (s : List Char) :
    digitsVal (padZeros w s) = digitsVal s := by
  simp only [padZeros, digitsVal_eq_valAux, valAux_append, valAux_replicate_zero]

/-! Integer token round trip. -/

theorem parseIntTok_natToChars (n : Nat) : parseIntTok (natToChars n) = some (n : Int) := by
  obtain ⟨c, rest, hcr⟩ : ∃ c rest, natToChars n = c :: rest := by
    cases h : natToChars n with
    | nil => exact absurd h (natToChars_ne_nil n)
    | cons c rest => exact ⟨c, rest, rfl⟩
  have hdigs := natToChars_all_isDig n
  rw [hcr] at hdigs ⊢
  have hc : isDig c = true := hdigs c (List.mem_cons_self _ _)
  obtain ⟨-, -, -, -, hminus, hplus, -, -⟩ := isDig_facts c hc
  rw [parseIntTok, if_neg hminus, if_neg hplus, if_pos]
  · have hv : digitsVal (c :: rest) = n := by rw [← hcr]; exact digitsVal_natToChars n
    rw [hv]
  · rw [List.all_eq_true]; exact hdigs

/-! Float token shape lemmas. -/

theorem splitAtDot_append (ip fp : List Char) (h : ∀ c ∈ ip, c ≠ '.') :
    splitAtDot (ip ++ '.' :: fp) = (ip, some fp) := by
  induction ip with
  | nil => simp [splitAtDot]
  | cons c cs ih =>
    rw [List.cons_append, splitAtDot, if_neg (h c (List.mem_cons_self _ _))]
    rw [ih (fun x hx => h x (List.mem_cons_of_mem _ hx))]

theorem splitAtExp_no_exp (s : List Char) (h : ∀ c ∈ s, c ≠ 'e' ∧ c ≠ 'E') :
    splitAtExp s = (s, none) := by
  induction s with
  | nil => rfl
  | cons c cs ih =>
    have hc := h c (List.mem_cons_self _ _)
    rw [splitAtExp, if_neg (by simp [hc.1, hc.2]), ih (fun x hx => h x (List.mem_cons_of_mem _ hx))]

theorem parseMant_shape (ip fp : List Char) (hip : ip ≠ []) (hipd : ∀ c ∈ ip, isDig c = true)
    (hfpd : ∀ c ∈ fp, isDig c = true) :
    parseMant (ip ++ '.' :: fp) =
      some (mkRat (digitsVal ip * 10 ^ fp.length + digitsVal fp) (10 ^ fp.length)) := by
  have hnodot : ∀ c ∈ ip, c ≠ '.' := fun c hc => (isDig_facts c (hipd c hc)).2.2.2.1
  simp only [parseMant, splitAtDot_append ip fp hnodot]
  rw [if_pos]
  exact ⟨Or.inl hip, by rw [List.all_eq_true]; exact hipd, by rw [List.all_eq_true]; exact hfpd⟩

theorem parseUFloat_shape (ip fp : List Char) (hip : ip ≠ []) (hipd : ∀ c ∈ ip, isDig c = true)
    (hfpd : ∀ c ∈ fp, isDig c = true) :
    parseUFloat (ip ++ '.' :: fp) =
      some (mkRat (digitsVal ip * 10 ^ fp.length + digitsVal fp) (10 ^ fp.length)) := by
  have hnoexp : ∀ c ∈ ip ++ '.' :: fp, c ≠ 'e' ∧ c ≠ 'E' := by
    intro c hc
    rcases List.mem_append.mp hc with h | h
    · have := isDig_facts c (hipd c h); exact ⟨this.2.2.2.2.2.2.1, this.2.2.2.2.2.2.2⟩
    · rcases List.mem_cons.mp h with rfl | h
      · exact ⟨by decide, by decide⟩
      · have := isDig_facts c (hfpd c h); exact ⟨this.2.2.2.2.2.2.1, this.2.2.2.2.2.2.2⟩
  rw [parseUFloat, splitAtExp_no_exp _ hnoexp]
  exact parseMant_shape ip fp hip hipd hfpd

theorem parseFloatTok_shape (ip fp : List Char) (hip : ip ≠ [])
    (hipd : ∀ c ∈ ip, isDig c = true) (hfpd : ∀ c ∈ fp, isDig c = true) :
    parseFloatTok (ip ++ '.' :: fp) =
      some (mkRat (digitsVal ip * 10 ^ fp.length + digitsVal fp) (10 ^ fp.length)) := by
  obtain ⟨c, rest, rfl⟩ : ∃ c rest, ip = c :: rest := by
    cases ip with
    | nil => exact absurd rfl hip
    | cons c rest => exact ⟨c, rest, rfl⟩
  have hc : isDig c = true := hipd c (List.mem_cons_self _ _)
  obtain ⟨-, -, -, -, hminus, hplus, -, -⟩ := isDig_facts c hc
  rw [List.cons_append, parseFloatTok, if_neg hminus, if_neg hplus, ← List.cons_append]
  exact parseUFloat_shape _ fp hip hipd hfpd

/-! Rounding analysis. -/

theorem roundHE6_def (q : ℚ) : roundHE6 q =
    (if 2 * (q.num * 1000000 % (q.den : Int)) < (q.den : Int) then
      q.num * 1000000 / (q.den : Int)
    else if (q.den : Int) < 2 * (q.num * 1000000 % (q.den : Int)) then
      q.num * 1000000 / (q.den : Int) + 1
    else if (q.num * 1000000 / (q.den : Int)) % 2 = 0 then
      q.num * 1000000 / (q.den : Int)
    else q.num * 1000000 / (q.den : Int) + 1) := rfl

theorem fmt6_def (q : ℚ) : fmt6 q =
    natToChars ((roundHE6 q).toNat / 1000000) ++
      '.' :: padZeros 6 (natToChars ((roundHE6 q).toNat % 1000000)) := rfl

theorem den_cast_pos (q : ℚ) : (0 : Int) < (q.den : Int) := by
  exact_mod_cast q.den_pos

theorem roundHE6_exact (q : ℚ) (m : Int) (h : q * 1000000 = (m : ℚ)) : roundHE6 q = m := by
  have hb : (0 : Int) < (q.den : Int) := den_cast_pos q
  have hbq : ((q.den : Int) : ℚ) ≠ 0 := by
    exact_mod_cast ne_of_gt hb
  have key : q.num * 1000000 = m * (q.den : Int) := by
    have h2 : (q.num : ℚ) * 1000000 = (m : ℚ) * ((q.den : Int) : ℚ) := by
      rw [← Rat.num_div_den q] at h
      field_simp at h
      push_cast
      exact_mod_cast h
    exact_mod_cast h2
  rw [roundHE6_def, key]
  rw [Int.mul_ediv_cancel m (ne_of_gt hb), Int.mul_emod_left]
  rw [if_pos (by omega)]

theorem roundHE6_nonneg (q : ℚ) (h : 0 ≤ q) : 0 ≤ roundHE6 q := by
  have hb : (0 : Int) < (q.den : Int) := den_cast_pos q
  have hnum : 0 ≤ q.num := Rat.num_nonneg.mpr h
  have ha : 0 ≤ q.num * 1000000 := by positivity
  have hf : 0 ≤ q.num * 1000000 / (q.den : Int) := Int.ediv_nonneg ha (le_of_lt hb)
  rw [roundHE6_def]
  split_ifs <;> omega

theorem roundHE6_le_million (q : ℚ) (h : q ≤ 1) : roundHE6 q ≤ 1000000 := by
  have hb : (0 : Int) < (q.den : Int) := den_cast_pos q
  have hnum : q.num ≤ (q.den : Int) := by
    rw [← Rat.num_div_den q, div_le_one (by exact_mod_cast hb)] at h
    exact_mod_cast h
  have ha : q.num * 1000000 ≤ (q.den : Int) * 1000000 :=
    mul_le_mul_of_nonneg_right hnum (by norm_num)
  have hf : q.num * 1000000 / (q.den : Int) ≤ 1000000 := by
    calc q.num * 1000000 / (q.den : Int) ≤ (q.den : Int) * 1000000 / (q.den : Int) :=
          Int.ediv_le_ediv hb ha
      _ = 1000000 := Int.mul_ediv_cancel_left 1000000 (ne_of_gt hb)
  have hrec := Int.ediv_add_emod (q.num * 1000000) (q.den : Int)
  have hr0 : 0 ≤ q.num * 1000000 % (q.den : Int) :=
    Int.emod_nonneg _ (ne_of_gt hb)
  have hstrict : (q.den : Int) ≤ 2 * (q.num * 1000000 % (q.den : Int)) →
      q.num * 1000000 / (q.den : Int) < 1000000 := by
    intro h2r
    rcases lt_or_eq_of_le hf with h' | h'
    · exact h'
    · exfalso
      rw [h'] at hrec
      omega
  rw [roundHE6_def]
  split_ifs with h1 h2 h3
  · exact hf
  · have := hstrict (by omega)
    omega
  · exact hf
  · have := hstrict (by omega)
    omega

/-- Value recovered by re-parsing a coordinate formatted with fmt6. -/
def rv6 (q : ℚ) : ℚ :=
  mkRat ((roundHE6 q).toNat : Int) 1000000

theorem parseFloatTok_fmt6 (q : ℚ) : parseFloatTok (fmt6 q) = some (rv6 q) := by
  rw [fmt6_def]
  have hlen : (padZeros 6 (natToChars ((roundHE6 q).toNat % 1000000))).length = 6 := by
    apply padZeros_len
    apply natToChars_len _ 6 (by norm_num)
    have : (roundHE6 q).toNat % 1000000 < 1000000 := Nat.mod_lt _ (by norm_num)
    omega
  rw [parseFloatTok_shape _ _ (natToChars_ne_nil _) (natToChars_all_isDig _)
    (padZeros_all_isDig _ _ (natToChars_all_isDig _))]
  rw [digitsVal_padZeros, digitsVal_natToChars, digitsVal_natToChars, hlen]
  congr 1
  rw [rv6]
  congr 1
  have h10 : (10 : Int) ^ 6 = 1000000 := by norm_num
  rw [h10]
  omega

theorem mkRat_million_eq_div (n : Nat) :
    (mkRat (n : Int) 1000000 : ℚ) = (n : ℚ) / 1000000 := by
  rw [Rat.mkRat_eq_div]
  norm_num

theorem rv6_bounds (q : ℚ) (h0 : 0 ≤ q) (h1 : q ≤ 1) : 0 ≤ rv6 q ∧ rv6 q ≤ 1 := by
  have hn0 : 0 ≤ roundHE6 q := roundHE6_nonneg q h0
  have hn1 : roundHE6 q ≤ 1000000 := roundHE6_le_million q h1
  have hle : ((roundHE6 q).toNat : Nat) ≤ 1000000 := by omega
  rw [rv6, mkRat_million_eq_div]
  constructor
  · positivity
  · rw [div_le_one (by norm_num)]
    exact_mod_cast hle

theorem fmt6_rv6 (q : ℚ) (h0 : 0 ≤ q) : fmt6 (rv6 q) = fmt6 q := by
  have hn0 : 0 ≤ roundHE6 q := roundHE6_nonneg q h0
  have hexact : rv6 q * 1000000 = (((roundHE6 q).toNat : Int) : ℚ) := by
    rw [rv6, mkRat_million_eq_div]
    push_cast
    field_simp
  have : roundHE6 (rv6 q) = ((roundHE6 q).toNat : Int) :=
    roundHE6_exact _ _ hexact
  rw [fmt6_def, fmt6_def, this]
  have htn : (((roundHE6 q).toNat : Int)).toNat = (roundHE6 q).toNat := by omega
  rw [htn]

/-! Whitespace tokenization lemmas. -/

theorem splitWsAux_token (t : List Char) (ht : ∀ c ∈ t, pyWs c = false) :
    ∀ cs acc, splitWsAux (t ++ cs) acc = splitWsAux cs (t.reverse ++ acc) := by
  induction t with
  | nil => intro cs acc; simp
  | cons c t ih =>
    intro cs acc
    have hc : pyWs c = false := ht c (List.mem_cons_self _ _)
    rw [List.cons_append]
    simp only [splitWsAux, hc, Bool.false_eq_true, if_false]
    rw [ih (fun x hx => ht x (List.mem_cons_of_mem _ hx)) cs (c :: acc)]
    simp

theorem splitWsAux_ws_cons (c : Char) (hc : pyWs c = true) (cs acc : List Char)
    (hacc : acc ≠ []) :
    splitWsAux (c :: cs) acc = acc.reverse :: splitWsAux cs [] := by
  simp [splitWsAux, hc, hacc]

theorem pySplitWs_sep :
    ∀ toks : List (List Char), (∀ t ∈ toks, t ≠ [] ∧ ∀ c ∈ t, pyWs c = false) →
    ∀ t0, t0 ≠ [] → (∀ c ∈ t0, pyWs c = false) →
    pySplitWs (t0 ++ (toks.map (fun t => ' ' :: t)).flatten) = t0 :: toks := by
  intro toks
  induction toks with
  | nil =>
    intro _ t0 ht0 hc
    simp only [List.map_nil, List.flatten_nil, List.append_nil, pySplitWs]
    have := splitWsAux_token t0 hc [] []
    simp only [List.append_nil] at this
    rw [this, splitWsAux]
    rw [if_neg (by simpa using ht0)]
    simp
  | cons t1 rest ih =>
    intro h t0 ht0 hc
    have hflat : (List.map (fun t => ' ' :: t) (t1 :: rest)).flatten =
        (' ' :: t1) ++ (List.map (fun t => ' ' :: t) rest).flatten := by simp
    rw [hflat, pySplitWs]
    rw [show t0 ++ (' ' :: t1 ++ (List.map (fun t => ' ' :: t) rest).flatten) =
        t0 ++ ' ' :: (t1 ++ (List.map (fun t => ' ' :: t) rest).flatten) from by simp]
    rw [splitWsAux_token t0 hc]
    rw [splitWsAux_ws_cons ' ' (by decide) _ _ (by simpa using ht0)]
    simp only [List.append_nil, List.reverse_reverse]
    have ht1 := h t1 (List.mem_cons_self _ _)
    have := ih (fun t ht => h t (List.mem_cons_of_mem _ ht)) t1 ht1.1 ht1.2
    rw [pySplitWs] at this
    rw [this]

/-! Strip lemmas. -/

theorem dropWhile_eq_self_of_head (s : List Char) (h : ∀ c ∈ s.head?, pyWs c = false) :
    s.dropWhile pyWs = s := by
  cases s with
  | nil => rfl
  | cons c t =>
    have hc : pyWs c = false := h c rfl
    simp [List.dropWhile_cons, hc]

theorem pyStrip_eq_self (s : List Char) (h1 : ∀ c ∈ s.head?, pyWs c = false)
    (h2 : ∀ c ∈ s.getLast?, pyWs c = false) : pyStrip s = s := by
  rw [pyStrip, dropWhile_eq_self_of_head s h1]
  rw [dropWhile_eq_self_of_head _ (by rw [List.head?_reverse]; exact h2)]
  exact List.reverse_reverse s

theorem head?_append_ne_nil (l X : List Char) (h : l ≠ []) : (l ++ X).head? = l.head? := by
  cases l with
  | nil => exact absurd rfl h
  | cons a t => rfl

theorem getLast?_append_ne_nil (l X : List Char) (h : X ≠ []) :
    (l ++ X).getLast? = X.getLast? := by
  rw [← List.head?_reverse, List.reverse_append,
    head?_append_ne_nil _ _ (by simpa using h), List.head?_reverse]

theorem pyStrip_append_nl (A : List Char) (hA : A ≠ [])
    (h1 : ∀ c ∈ A.head?, pyWs c = false) (h2 : ∀ c ∈ A.getLast?, pyWs c = false) :
    pyStrip (A ++ ['\n']) = A := by
  rw [pyStrip]
  rw [dropWhile_eq_self_of_head (A ++ ['\n'])
    (by rw [head?_append_ne_nil _ _ hA]; exact h1)]
  rw [List.reverse_append]
  show (('\n' :: A.reverse).dropWhile pyWs).reverse = A
  rw [List.dropWhile_cons]
  rw [if_pos (by decide)]
  rw [dropWhile_eq_self_of_head _ (by rw [List.head?_reverse]; exact h2)]
  exact List.reverse_reverse A

/-! Newline split and join lemmas. -/

theorem joinNl_cons_cons (l l2 : List Char) (rest : List (List Char)) :
    joinNl (l :: l2 :: rest) = l ++ '\n' :: joinNl (l2 :: rest) := rfl

theorem joinNl_ne_nil (ls : List (List Char)) (h : ls ≠ []) (h1 : ∀ l ∈ ls, l ≠ []) :
    joinNl ls ≠ [] := by
  match ls with
  | [l] => exact h1 l (List.mem_cons_self _ _)
  | l :: l2 :: rest =>
    rw [joinNl_cons_cons]
    simp [h1 l (List.mem_cons_self _ _)]

theorem joinNl_head? (l : List Char) (rest : List (List Char)) (h : l ≠ []) :
    (joinNl (l :: rest)).head? = l.head? := by
  cases rest with
  | nil => rfl
  | cons l2 r => rw [joinNl_cons_cons, head?_append_ne_nil _ _ h]

theorem all_getLast? {P : Char → Prop} (l : List Char) (h : ∀ c ∈ l, P c) :
    ∀ c ∈ l.getLast?, P c := by
  induction l with
  | nil => intro c hc; simp at hc
  | cons a t ih =>
    intro c hc
    cases t with
    | nil =>
      simp only [List.getLast?_singleton, Option.mem_def, Option.some.injEq] at hc
      subst hc
      exact h a (List.mem_cons_self _ _)
    | cons b u =>
      rw [List.getLast?_cons_cons] at hc
      exact ih (fun x hx => h x (List.mem_cons_of_mem _ hx)) c hc

theorem all_head? {P : Char → Prop} (l : List Char) (h : ∀ c ∈ l, P c) :
    ∀ c ∈ l.head?, P c := by
  cases l with
  | nil => intro c hc; simp at hc
  | cons a t =>
    intro c hc
    simp only [List.head?_cons, Option.mem_def, Option.some.injEq] at hc
    subst hc
    exact h a (List.mem_cons_self _ _)

theorem joinNl_getLast_digit (ls : List (List Char)) (h : ls ≠ [])
    (hd : ∀ l ∈ ls, ∀ c ∈ l, isDig c = true ∨ c = '.' ∨ c = ' ')
    (hlast : ∀ l ∈ ls, ∀ c ∈ l.getLast?, isDig c = true)
    (hne : ∀ l ∈ ls, l ≠ []) :
    ∀ c ∈ (joinNl ls).getLast?, isDig c = true := by
  induction ls with
  | nil => cases h rfl
  | cons l rest ih =>
    cases rest with
    | nil => exact hlast l (List.mem_cons_self _ _)
    | cons l2 r =>
      rw [joinNl_cons_cons]
      have hjoin : joinNl (l2 :: r) ≠ [] :=
        joinNl_ne_nil _ (by simp) (fun x hx => hne x (List.mem_cons_of_mem _ hx))
      have hstep : ('\n' :: joinNl (l2 :: r)) = ['\n'] ++ joinNl (l2 :: r) := rfl
      rw [getLast?_append_ne_nil _ _ (by simp), hstep, getLast?_append_ne_nil _ _ hjoin]
      exact ih (by simp) (fun x hx => hd x (List.mem_cons_of_mem _ hx))
        (fun x hx => hlast x (List.mem_cons_of_mem _ hx))
        (fun x hx => hne x (List.mem_cons_of_mem _ hx))

theorem joinNl_mem_chars (ls : List (List Char)) :
    ∀ c ∈ joinNl ls, (∃ l ∈ ls, c ∈ l) ∨ c = '\n' := by
  induction ls with
  | nil => intro c hc; simp [joinNl] at hc
  | cons l rest ih =>
    cases rest with
    | nil =>
      intro c hc
      exact Or.inl ⟨l, List.mem_cons_self _ _, hc⟩
    | cons l2 r =>
      intro c hc
      rw [joinNl_cons_cons] at hc
      rcases List.mem_append.mp hc with h | h
      · exact Or.inl ⟨l, List.mem_cons_self _ _, h⟩
      · rcases List.mem_cons.mp h with rfl | h
        · exact Or.inr rfl
        · rcases ih c h with ⟨x, hx, hcx⟩ | rfl
          · exact Or.inl ⟨x, List.mem_cons_of_mem _ hx, hcx⟩
          · exact Or.inr rfl

theorem pySplitNl_no_nl (l : List Char) (h : ∀ c ∈ l, c ≠ '\n') : pySplitNl l = [l] := by
  induction l with
  | nil => rfl
  | cons c cs ih =>
    simp only [pySplitNl, if_neg (h c (List.mem_cons_self _ _))]
    rw [ih (fun x hx => h x (List.mem_cons_of_mem _ hx))]

theorem pySplitNl_append (l rest : List Char) (h : ∀ c ∈ l, c ≠ '\n') :
    pySplitNl (l ++ '\n' :: rest) = l :: pySplitNl rest := by
  induction l with
  | nil => simp [pySplitNl]
  | cons c cs ih =>
    rw [List.cons_append]
    simp only [pySplitNl, if_neg (h c (List.mem_cons_self _ _))]
    rw [ih (fun x hx => h x (List.mem_cons_of_mem _ hx))]

theorem pySplitNl_joinNl (ls : List (List Char)) (h : ls ≠ [])
    (hnl : ∀ l ∈ ls, ∀ c ∈ l, c ≠ '\n') : pySplitNl (joinNl ls) = ls := by
  induction ls with
  | nil => cases h rfl
  | cons l rest ih =>
    cases rest with
    | nil => exact pySplitNl_no_nl l (hnl l (List.mem_cons_self _ _))
    | cons l2 r =>
      rw [joinNl_cons_cons, pySplitNl_append _ _ (hnl l (List.mem_cons_self _ _))]
      rw [ih (by simp) (fun x hx => hnl x (List.mem_cons_of_mem _ hx))]

theorem pySplitNl_joinNl_concat (ls : List (List Char)) (h : ls ≠ [])
    (hnl : ∀ l ∈ ls, ∀ c ∈ l, c ≠ '\n') :
    pySplitNl (joinNl ls ++ ['\n']) = ls ++ [[]] := by
  induction ls with
  | nil => cases h rfl
  | cons l rest ih =>
    cases rest with
    | nil =>
      show pySplitNl (l ++ '\n' :: []) = [l, []]
      rw [pySplitNl_append _ _ (hnl l (List.mem_cons_self _ _))]
      rfl
    | cons l2 r =>
      rw [joinNl_cons_cons]
      have : (l ++ '\n' :: joinNl (l2 :: r)) ++ ['\n'] =
          l ++ '\n' :: (joinNl (l2 :: r) ++ ['\n']) := by simp
      rw [this, pySplitNl_append _ _ (hnl l (List.mem_cons_self _ _))]
      rw [ih (by simp) (fun x hx => hnl x (List.mem_cons_of_mem _ hx))]
      rfl

theorem pyReplaceEscNl_id (s : List Char) (h : ∀ c ∈ s, c ≠ '\\') :
    pyReplaceEscNl s = s := by
  induction s with
  | nil => rfl
  | cons c t ih =>
    cases t with
    | nil => rfl
    | cons d r =>
      have hc : c ≠ '\\' := h c (List.mem_cons_self _ _)
      have hcond : (decide (c = '\\') && decide (d = 'n')) = false := by simp [hc]
      simp only [pyReplaceEscNl, hcond, Bool.false_eq_true, if_false]
      rw [ih (fun x hx => h x (List.mem_cons_of_mem _ hx))]

/-! Rendered line shape facts. -/

theorem fmt6_shape (q : ℚ) : ∃ ip fr, fmt6 q = ip ++ '.' :: fr ∧ ip ≠ [] ∧ fr.length = 6 ∧
    (∀ c ∈ ip, isDig c = true) ∧ (∀ c ∈ fr, isDig c = true) := by
  refine ⟨natToChars ((roundHE6 q).toNat / 1000000),
    padZeros 6 (natToChars ((roundHE6 q).toNat % 1000000)), fmt6_def q,
    natToChars_ne_nil _, ?_, natToChars_all_isDig _,
    padZeros_all_isDig _ _ (natToChars_all_isDig _)⟩
  apply padZeros_len
  apply natToChars_len _ 6 (by norm_num)
  have : (roundHE6 q).toNat % 1000000 < 1000000 := Nat.mod_lt _ (by norm_num)
  omega

theorem fmt6_chars (q : ℚ) : ∀ c ∈ fmt6 q, isDig c = true ∨ c = '.' := by
  obtain ⟨ip, fr, heq, -, -, hip, hfr⟩ := fmt6_shape q
  rw [heq]
  intro c hc
  rcases List.mem_append.mp hc with h | h
  · exact Or.inl (hip c h)
  · rcases List.mem_cons.mp h with rfl | h
    · exact Or.inr rfl
    · exact Or.inl (hfr c h)

theorem fmt6_ne_nil (q : ℚ) : fmt6 q ≠ [] := by
  obtain ⟨ip, fr, heq, hip, -, -⟩ := fmt6_shape q
  rw [heq]
  simp

theorem fmt6_no_ws (q : ℚ) : ∀ c ∈ fmt6 q, pyWs c = false := by
  intro c hc
  rcases fmt6_chars q c hc with h | rfl
  · exact (isDig_facts c h).1
  · decide

theorem fmt6_getLast_digit (q : ℚ) : ∀ c ∈ (fmt6 q).getLast?, isDig c = true := by
  obtain ⟨ip, fr, heq, -, hlen, -, hfr⟩ := fmt6_shape q
  rw [heq]
  have hfrne : fr ≠ [] := by
    intro hh; rw [hh] at hlen; simp at hlen
  have : ip ++ '.' :: fr = (ip ++ ['.']) ++ fr := by simp
  rw [this, getLast?_append_ne_nil _ _ hfrne]
  exact all_getLast? fr hfr

theorem intToChars_nonneg (k : Int) (h : 0 ≤ k) : intToChars k = natToChars k.toNat := by
  rw [intToChars, if_neg (by omega)]

theorem renderLine_eq (k : Int) (cs : List ℚ) :
    renderLine k cs = intToChars k ++ ((cs.map fmt6).map (fun t => ' ' :: t)).flatten := by
  rw [renderLine, List.map_map]
  rfl

theorem renderLine_tokens (k : Int) (cs : List ℚ) (h : 0 ≤ k) :
    pySplitWs (renderLine k cs) = intToChars k :: cs.map fmt6 := by
  rw [renderLine_eq]
  apply pySplitWs_sep
  · intro t ht
    rw [List.mem_map] at ht
    obtain ⟨q, -, rfl⟩ := ht
    exact ⟨fmt6_ne_nil q, fmt6_no_ws q⟩
  · rw [intToChars_nonneg _ h]; exact natToChars_ne_nil _
  · rw [intToChars_nonneg _ h]
    intro c hc
    exact (isDig_facts c (natToChars_all_isDig _ c hc)).1

theorem renderLine_ne_nil (k : Int) (cs : List ℚ) (h : 0 ≤ k) : renderLine k cs ≠ [] := by
  rw [renderLine_eq, intToChars_nonneg _ h]
  simp [natToChars_ne_nil]

theorem renderLine_head_digit (k : Int) (cs : List ℚ) (h : 0 ≤ k) :
    ∀ c ∈ (renderLine k cs).head?, isDig c = true := by
  rw [renderLine_eq, intToChars_nonneg _ h,
    head?_append_ne_nil _ _ (natToChars_ne_nil _)]
  exact all_head? _ (natToChars_all_isDig _)

theorem renderLine_getLast_digit (k : Int) (cs : List ℚ) (h : 0 ≤ k) :
    ∀ c ∈ (renderLine k cs).getLast?, isDig c = true := by
  rcases List.eq_nil_or_concat cs with rfl | ⟨cs', q, rfl⟩
  · rw [renderLine_eq, intToChars_nonneg _ h]
    simp only [List.map_nil, List.flatten_nil, List.append_nil]
    exact all_getLast? _ (natToChars_all_isDig _)
  · rw [List.concat_eq_append, renderLine_eq]
    have : ((cs' ++ [q]).map fmt6).map (fun t => ' ' :: t) =
        ((cs'.map fmt6).map (fun t => ' ' :: t)) ++ [' ' :: fmt6 q] := by simp
    rw [this, List.flatten_append]
    have hfl : (([' ' :: fmt6 q] : List (List Char))).flatten = ' ' :: fmt6 q := by simp
    rw [hfl, ← List.append_assoc]
    rw [getLast?_append_ne_nil _ _ (by simp)]
    have hsp : (' ' :: fmt6 q) = [' '] ++ fmt6 q := rfl
    rw [hsp, getLast?_append_ne_nil _ _ (fmt6_ne_nil q)]
    exact fmt6_getLast_digit q

theorem renderLine_chars (k : Int) (cs : List ℚ) (h : 0 ≤ k) :
    ∀ c ∈ renderLine k cs, isDig c = true ∨ c = '.' ∨ c = ' ' := by
  rw [renderLine_eq, intToChars_nonneg _ h]
  intro c hc
  rcases List.mem_append.mp hc with hm | hm
  · exact Or.inl (natToChars_all_isDig _ c hm)
  · rw [List.mem_flatten] at hm
    obtain ⟨l, hl, hcl⟩ := hm
    rw [List.mem_map] at hl
    obtain ⟨t, ht, rfl⟩ := hl
    rw [List.mem_map] at ht
    obtain ⟨q, -, rfl⟩ := ht
    rcases List.mem_cons.mp hcl with rfl | hcf
    · exact Or.inr (Or.inr rfl)
    · rcases fmt6_chars q c hcf with hd | rfl
      · exact Or.inl hd
      · exact Or.inr (Or.inl rfl)

theorem renderLine_no_nl (k : Int) (cs : List ℚ) (h : 0 ≤ k) :
    ∀ c ∈ renderLine k cs, c ≠ '\n' := by
  intro c hc
  rcases renderLine_chars k cs h c hc with hd | rfl | rfl
  · exact (isDig_facts c hd).2.2.1
  · decide
  · decide

theorem renderLine_no_bs (k : Int) (cs : List ℚ) (h : 0 ≤ k) :
    ∀ c ∈ renderLine k cs, c ≠ '\\' := by
  intro c hc
  rcases renderLine_chars k cs h c hc with hd | rfl | rfl
  · exact (isDig_facts c hd).2.1
  · decide
  · decide

/-! Per-line repair analysis. -/

theorem parseFloats_map_fmt6 (cs : List ℚ) :
    parseFloats (cs.map fmt6) = some (cs.map rv6) := by
  induction cs with
  | nil => rfl
  | cons q rest ih => simp [parseFloats, parseFloatTok_fmt6, ih]

theorem parseFloats_length (ts : List (List Char)) :
    ∀ cs, parseFloats ts = some cs → cs.length = ts.length := by
  induction ts with
  | nil =>
    intro cs h
    simp only [parseFloats, Option.some.injEq] at h
    subst h
    rfl
  | cons t ts ih =>
    intro cs h
    rw [parseFloats] at h
    cases hpt : parseFloatTok t with
    | none => rw [hpt] at h; simp at h
    | some q =>
      rw [hpt] at h
      cases hps : parseFloats ts with
      | none => rw [hps] at h; simp at h
      | some qs =>
        rw [hps] at h
        simp only [Option.some.injEq] at h
        subst h
        simp [ih qs hps]

/-- Shared inner step of the two accepting branches (box and polygon), which are
the same parse-validate-render code in the source. -/
def lineParse (parts : List (List Char)) : Option (List Char) :=
  match parts with
  | p0 :: coordToks =>
    match parseIntTok p0, parseFloats coordToks with
    | some k, some cs =>
      if 0 ≤ k ∧ k ≤ 39 ∧ ∀ c ∈ cs, 0 ≤ c ∧ c ≤ 1 then some (renderLine k cs) else none
    | _, _ => none
  | [] => none

theorem processLine_eq (line : List Char) :
    processLine line =
      if pyStrip line = [] then none
      else if (pySplitWs (pyStrip line)).length = 5 ∨
          (7 ≤ (pySplitWs (pyStrip line)).length ∧
            (pySplitWs (pyStrip line)).length % 2 = 1) then
        lineParse (pySplitWs (pyStrip line))
      else none := by
  rw [processLine]
  by_cases h0 : pyStrip line = []
  · simp [h0]
  · simp only [if_neg h0]
    by_cases h5 : (pySplitWs (pyStrip line)).length = 5
    · rw [if_pos h5, if_pos (Or.inl h5)]
      rfl
    · rw [if_neg h5]
      by_cases h7 : 7 ≤ (pySplitWs (pyStrip line)).length ∧
          (pySplitWs (pyStrip line)).length % 2 = 1
      · rw [if_pos h7, if_pos (Or.inr h7)]
        rfl
      · rw [if_neg h7, if_neg (by tauto)]

theorem lineParse_render (k : Int) (cs : List ℚ) (hk0 : 0 ≤ k) (hk39 : k ≤ 39)
    (hcs : ∀ q ∈ cs, 0 ≤ q ∧ q ≤ 1) :
    lineParse (intToChars k :: cs.map fmt6) = some (renderLine k cs) := by
  have hint : parseIntTok (intToChars k) = some k := by
    rw [intToChars_nonneg _ hk0, parseIntTok_natToChars, Int.toNat_of_nonneg hk0]
  rw [lineParse, hint, parseFloats_map_fmt6]
  dsimp only
  have hall : ∀ c ∈ List.map rv6 cs, 0 ≤ c ∧ c ≤ 1 := by
    intro c hc
    rw [List.mem_map] at hc
    obtain ⟨q, hq, rfl⟩ := hc
    exact rv6_bounds q (hcs q hq).1 (hcs q hq).2
  rw [if_pos ⟨hk0, hk39, hall⟩]
  congr 1
  rw [renderLine, renderLine, List.map_map]
  congr 1
  congr 1
  apply List.map_congr_left
  intro q hq
  simp only [Function.comp_apply]
  rw [fmt6_rv6 q (hcs q hq).1]

/-- Shape of every line written back by the repair pass. -/
def LineShape (out : List Char) : Prop :=
  ∃ k cs, 0 ≤ k ∧ k ≤ 39 ∧ (∀ q ∈ cs, 0 ≤ q ∧ q ≤ 1) ∧
    (cs.length = 4 ∨ (6 ≤ cs.length ∧ cs.length % 2 = 0)) ∧ out = renderLine k cs

theorem processLine_render (k : Int) (cs : List ℚ) (hk0 : 0 ≤ k) (hk39 : k ≤ 39)
    (hcs : ∀ q ∈ cs, 0 ≤ q ∧ q ≤ 1)
    (hlen : cs.length = 4 ∨ (6 ≤ cs.length ∧ cs.length % 2 = 0)) :
    processLine (renderLine k cs) = some (renderLine k cs) := by
  have hstrip : pyStrip (renderLine k cs) = renderLine k cs := by
    apply pyStrip_eq_self
    · intro c hc
      exact (isDig_facts c (renderLine_head_digit k cs hk0 c hc)).1
    · intro c hc
      exact (isDig_facts c (renderLine_getLast_digit k cs hk0 c hc)).1
  rw [processLine_eq, hstrip, if_neg (renderLine_ne_nil k cs hk0)]
  rw [renderLine_tokens k cs hk0]
  have hlen' : (intToChars k :: cs.map fmt6).length = cs.length + 1 := by simp
  rw [if_pos]
  · exact lineParse_render k cs hk0 hk39 hcs
  · rw [hlen']
    rcases hlen with h | h
    · exact Or.inl (by omega)
    · exact Or.inr (by omega)

theorem processLine_some_shape (l out : List Char) (h : processLine l = some out) :
    LineShape out := by
  rw [processLine_eq] at h
  by_cases h0 : pyStrip l = []
  · rw [if_pos h0] at h; simp at h
  · rw [if_neg h0] at h
    by_cases hcond : (pySplitWs (pyStrip l)).length = 5 ∨
        (7 ≤ (pySplitWs (pyStrip l)).length ∧ (pySplitWs (pyStrip l)).length % 2 = 1)
    · rw [if_pos hcond] at h
      cases hparts : pySplitWs (pyStrip l) with
      | nil => rw [hparts] at h hcond; simp [lineParse] at h
      | cons p0 toks =>
        rw [hparts] at h hcond
        rw [lineParse] at h
        cases hk : parseIntTok p0 with
        | none => rw [hk] at h; simp at h
        | some k =>
          rw [hk] at h
          cases hcs : parseFloats toks with
          | none => rw [hcs] at h; simp at h
          | some cs =>
            rw [hcs] at h
            dsimp only at h
            by_cases hr : 0 ≤ k ∧ k ≤ 39 ∧ ∀ c ∈ cs, 0 ≤ c ∧ c ≤ 1
            · rw [if_pos hr] at h
              simp only [Option.some.injEq] at h
              subst h
              refine ⟨k, cs, hr.1, hr.2.1, hr.2.2, ?_, rfl⟩
              have hl := parseFloats_length toks cs hcs
              simp only [List.length_cons] at hcond
              rcases hcond with h5 | h7
              · exact Or.inl (by omega)
              · exact Or.inr (by omega)
            · rw [if_neg hr] at h; simp at h
    · rw [if_neg hcond] at h; simp at h

theorem repairLines_shape (raw : List Char) :
    ∀ out ∈ repairLines raw, LineShape out := by
  intro out hout
  rw [repairLines, List.mem_filterMap] at hout
  obtain ⟨l, -, hpl⟩ := hout
  exact processLine_some_shape l out hpl

theorem filterMap_processLine_self (ls : List (List Char))
    (h : ∀ l ∈ ls, processLine l = some l) : ls.filterMap processLine = ls := by
  induction ls with
  | nil => rfl
  | cons l rest ih =>
    rw [List.filterMap_cons, h l (List.mem_cons_self _ _)]
    rw [ih (fun x hx => h x (List.mem_cons_of_mem _ hx))]

theorem shape_facts (out : List Char) (h : LineShape out) :
    out ≠ [] ∧ (∀ c ∈ out.head?, isDig c = true) ∧
    (∀ c ∈ out.getLast?, isDig c = true) ∧
    (∀ c ∈ out, isDig c = true ∨ c = '.' ∨ c = ' ') ∧
    processLine out = some out := by
  obtain ⟨k, cs, hk0, hk39, hcs, hlen, rfl⟩ := h
  exact ⟨renderLine_ne_nil _ _ hk0, renderLine_head_digit _ _ hk0,
    renderLine_getLast_digit _ _ hk0, renderLine_chars _ _ hk0,
    processLine_render k cs hk0 hk39 hcs hlen⟩

theorem renderFile_strip (ls : List (List Char)) (hne : ls ≠ [])
    (hsh : ∀ out ∈ ls, LineShape out) : pyStrip (renderFile ls) = joinNl ls := by
  have hne' : ∀ l ∈ ls, l ≠ [] := fun l hl => (shape_facts l (hsh l hl)).1
  obtain ⟨l0, rest, rfl⟩ : ∃ l0 rest, ls = l0 :: rest := by
    cases ls with
    | nil => exact absurd rfl hne
    | cons a b => exact ⟨a, b, rfl⟩
  rw [renderFile]
  apply pyStrip_append_nl _ (joinNl_ne_nil _ hne hne')
  · rw [joinNl_head? _ _ (hne' l0 (List.mem_cons_self _ _))]
    intro c hc
    exact (isDig_facts c ((shape_facts l0 (hsh l0 (List.mem_cons_self _ _))).2.1 c hc)).1
  · intro c hc
    refine (isDig_facts c (joinNl_getLast_digit _ hne ?_ ?_ hne' c hc)).1
    · exact fun l hl => (shape_facts l (hsh l hl)).2.2.2.1
    · exact fun l hl => (shape_facts l (hsh l hl)).2.2.1

theorem line_chars_no_nl (out : List Char) (h : LineShape out) : ∀ c ∈ out, c ≠ '\n' := by
  intro c hc
  rcases (shape_facts out h).2.2.2.1 c hc with hd | rfl | rfl
  · exact (isDig_facts c hd).2.2.1
  · decide
  · decide

theorem repairLines_renderFile (ls : List (List Char)) (hne : ls ≠ [])
    (hsh : ∀ out ∈ ls, LineShape out) : repairLines (renderFile ls) = ls := by
  have hnl : ∀ l ∈ ls, ∀ c ∈ l, c ≠ '\n' := fun l hl => line_chars_no_nl l (hsh l hl)
  have hbs : ∀ c ∈ joinNl ls, c ≠ '\\' := by
    intro c hc
    rcases joinNl_mem_chars ls c hc with ⟨l, hl, hcl⟩ | rfl
    · rcases (shape_facts l (hsh l hl)).2.2.2.1 c hcl with hd | rfl | rfl
      · exact (isDig_facts c hd).2.1
      · decide
      · decide
    · decide
  rw [repairLines, renderFile_strip ls hne hsh, pyReplaceEscNl_id _ hbs,
    pySplitNl_joinNl ls hne hnl]
  exact filterMap_processLine_self ls (fun l hl => (shape_facts l (hsh l hl)).2.2.2.2)

theorem repairText_idem (raw : List Char) : repairText (repairText raw) = repairText raw := by
  by_cases h0 : pyStrip raw = []
  · have hr : repairText raw = raw := by rw [repairText, repairRun, if_pos h0]
    rw [hr]
    exact hr
  · by_cases hls : repairLines raw = []
    · have hr : repairText raw = raw := by
        rw [repairText, repairRun, if_neg h0]
        simp [hls]
      rw [hr]
      exact hr
    · have hr : repairText raw = renderFile (repairLines raw) := by
        rw [repairText, repairRun, if_neg h0]
        simp [hls]
      rw [hr]
      have hsh := repairLines_shape raw
      have hstrip : pyStrip (renderFile (repairLines raw)) = joinNl (repairLines raw) :=
        renderFile_strip _ hls hsh
      have hne' : ∀ l ∈ repairLines raw, l ≠ [] :=
        fun l hl => (shape_facts l (hsh l hl)).1
      rw [repairText, repairRun]
      rw [if_neg (by rw [hstrip]; exact joinNl_ne_nil _ hls hne')]
      rw [repairLines_renderFile _ hls hsh]
      simp [hls]

/-! Acceptance-rule equivalence lemmas. -/

theorem parseFloats_forall (ts : List (List Char)) :
    ∀ cs, parseFloats ts = some cs → ∀ P : ℚ → Prop,
      ((∀ q ∈ cs, P q) ↔ ∀ t ∈ ts, ∃ q, parseFloatTok t = some q ∧ P q) := by
  induction ts with
  | nil =>
    intro cs h P
    simp only [parseFloats, Option.some.injEq] at h
    subst h
    simp
  | cons t ts ih =>
    intro cs h P
    rw [parseFloats] at h
    cases hpt : parseFloatTok t with
    | none => rw [hpt] at h; simp at h
    | some q =>
      rw [hpt] at h
      cases hps : parseFloats ts with
      | none => rw [hps] at h; simp at h
      | some qs =>
        rw [hps] at h
        simp only [Option.some.injEq] at h
        subst h
        constructor
        · intro hall x hx
          rcases List.mem_cons.mp hx with rfl | hx
          · exact ⟨q, hpt, hall q (List.mem_cons_self _ _)⟩
          · exact ((ih qs hps P).mp
              (fun y hy => hall y (List.mem_cons_of_mem _ hy))) x hx
        · intro hall y hy
          rcases List.mem_cons.mp hy with rfl | hy
          · obtain ⟨q', hq', hP⟩ := hall t (List.mem_cons_self _ _)
            rw [hpt] at hq'
            cases hq'
            exact hP
          · exact ((ih qs hps P).mpr
              (fun x hx => hall x (List.mem_cons_of_mem _ hx))) y hy

theorem parseFloats_eq_none (ts : List (List Char)) (h : parseFloats ts = none) :
    ∃ t ∈ ts, parseFloatTok t = none := by
  induction ts with
  | nil => simp [parseFloats] at h
  | cons t ts ih =>
    rw [parseFloats] at h
    cases hpt : parseFloatTok t with
    | none => exact ⟨t, List.mem_cons_self _ _, hpt⟩
    | some q =>
      rw [hpt] at h
      cases hps : parseFloats ts with
      | none =>
        obtain ⟨x, hx, hnone⟩ := ih hps
        exact ⟨x, List.mem_cons_of_mem _ hx, hnone⟩
      | some qs => rw [hps] at h; simp at h

theorem parseFloats_all_some (ts : List (List Char))
    (h : ∀ t ∈ ts, ∃ q, parseFloatTok t = some q ∧ 0 ≤ q ∧ q ≤ 1) :
    ∃ cs, parseFloats ts = some cs := by
  cases hps : parseFloats ts with
  | none =>
    obtain ⟨t, ht, hnone⟩ := parseFloats_eq_none ts hps
    obtain ⟨q, hq, -⟩ := h t ht
    rw [hnone] at hq
    cases hq
  | some cs => exact ⟨cs, rfl⟩

theorem tokFloatOk_iff (t : List Char) :
    ((match parseFloatTok t with
      | some q => decide (0 ≤ q) && decide (q ≤ 1)
      | none => false) = true) ↔ ∃ q, parseFloatTok t = some q ∧ 0 ≤ q ∧ q ≤ 1 := by
  cases hq : parseFloatTok t <;> simp

theorem acceptToks_iff (t0 : List Char) (rest : List (List Char)) :
    acceptToks (t0 :: rest) = true ↔
      ((∃ k, parseIntTok t0 = some k ∧ 0 ≤ k ∧ k ≤ 39) ∧
        ∀ t ∈ rest, ∃ q, parseFloatTok t = some q ∧ 0 ≤ q ∧ q ≤ 1) := by
  rw [acceptToks, Bool.and_eq_true, List.all_eq_true]
  constructor
  · rintro ⟨h1, h2⟩
    constructor
    · cases hk : parseIntTok t0 with
      | none => rw [hk] at h1; simp at h1
      | some k =>
        rw [hk] at h1
        simp only [Bool.and_eq_true, decide_eq_true_eq] at h1
        exact ⟨k, rfl, h1⟩
    · intro t ht
      exact (tokFloatOk_iff t).mp (h2 t ht)
  · rintro ⟨⟨k, hk, hk0, hk39⟩, h2⟩
    refine ⟨?_, fun t ht => (tokFloatOk_iff t).mpr (h2 t ht)⟩
    rw [hk]
    simp [hk0, hk39]

theorem lineParse_isSome_iff (p0 : List Char) (toks : List (List Char)) :
    (lineParse (p0 :: toks)).isSome = true ↔ acceptToks (p0 :: toks) = true := by
  rw [acceptToks_iff, lineParse]
  cases hk : parseIntTok p0 with
  | none => simp
  | some k =>
    cases hcs : parseFloats toks with
    | none =>
      simp only [Option.isSome_none, Bool.false_eq_true, false_iff]
      rintro ⟨-, h2⟩
      obtain ⟨cs, hcs'⟩ := parseFloats_all_some toks h2
      rw [hcs] at hcs'
      cases hcs'
    | some cs =>
      dsimp only
      by_cases hr : 0 ≤ k ∧ k ≤ 39 ∧ ∀ c ∈ cs, 0 ≤ c ∧ c ≤ 1
      · rw [if_pos hr]
        simp only [Option.isSome_some, true_iff]
        exact ⟨⟨k, rfl, hr.1, hr.2.1⟩,
          (parseFloats_forall toks cs hcs _).mp hr.2.2⟩
      · rw [if_neg hr]
        simp only [Option.isSome_none, Bool.false_eq_true, false_iff]
        rintro ⟨⟨k', hk', hk0, hk39⟩, h2⟩
        cases hk'
        exact hr ⟨hk0, hk39, (parseFloats_forall toks cs hcs _).mpr h2⟩

theorem lineTokens_ne_nil_of_len (l : List Char)
    (h : (lineTokens l).length = 5 ∨
      (7 ≤ (lineTokens l).length ∧ (lineTokens l).length % 2 = 1)) :
    pyStrip l ≠ [] := by
  intro hh
  rw [lineTokens, hh] at h
  revert h
  decide

theorem processLine_isSome_iff (l : List Char)
    (h : (lineTokens l).length = 5 ∨
      (7 ≤ (lineTokens l).length ∧ (lineTokens l).length % 2 = 1)) :
    ((processLine l).isSome = true ↔ acceptToks (lineTokens l) = true) := by
  have hne := lineTokens_ne_nil_of_len l h
  rw [lineTokens] at h ⊢
  rw [processLine_eq, if_neg hne, if_pos h]
  cases hparts : pySplitWs (pyStrip l) with
  | nil => rw [hparts] at h; simp at h
  | cons p0 toks => exact lineParse_isSome_iff p0 toks

theorem filterMap_skip (l : List Char) (h : processLine l = none)
    (pre post : List (List Char)) :
    (pre ++ l :: post).filterMap processLine = (pre ++ post).filterMap processLine := by
  rw [List.filterMap_append, List.filterMap_append, List.filterMap_cons, h]

theorem processLine_other_count (l : List Char)
    (h5 : ¬(lineTokens l).length = 5)
    (h7 : ¬(7 ≤ (lineTokens l).length ∧ (lineTokens l).length % 2 = 1)) :
    processLine l = none := by
  rw [processLine_eq]
  rw [lineTokens] at h5 h7
  by_cases h0 : pyStrip l = []
  · rw [if_pos h0]
  · rw [if_neg h0, if_neg (by tauto)]

/-! Verify loop characterization. -/

theorem verifyLines_cons_blank (l : List Char) (ls : List (List Char))
    (v : Bool) (o b p : Nat) (h : pyStrip l = []) :
    verifyLines (l :: ls) v o b p = verifyLines ls v o b p := by
  rw [verifyLines]
  simp [h]

theorem verifyLines_cons_accept (l : List Char) (ls : List (List Char))
    (v : Bool) (o b p : Nat) (out : List Char) (hnb : pyStrip l ≠ [])
    (hpl : processLine l = some out) :
    ((lineTokens l).length = 5 ∧
      verifyLines (l :: ls) v o b p = verifyLines ls v (o + 1) (b + 1) p) ∨
    ((7 ≤ (lineTokens l).length ∧ (lineTokens l).length % 2 = 1) ∧
      verifyLines (l :: ls) v o b p = verifyLines ls v (o + 1) b (p + 1)) := by
  rw [processLine_eq, if_neg hnb] at hpl
  by_cases hcond : (pySplitWs (pyStrip l)).length = 5 ∨
      (7 ≤ (pySplitWs (pyStrip l)).length ∧ (pySplitWs (pyStrip l)).length % 2 = 1)
  · rw [if_pos hcond] at hpl
    cases hparts : pySplitWs (pyStrip l) with
    | nil => rw [hparts] at hpl; simp [lineParse] at hpl
    | cons p0 toks =>
      rw [hparts] at hpl hcond
      rw [lineParse] at hpl
      cases hk : parseIntTok p0 with
      | none => rw [hk] at hpl; simp at hpl
      | some k =>
        rw [hk] at hpl
        cases hcs : parseFloats toks with
        | none => rw [hcs] at hpl; simp at hpl
        | some cs =>
          rw [hcs] at hpl
          dsimp only at hpl
          by_cases hr : 0 ≤ k ∧ k ≤ 39 ∧ ∀ c ∈ cs, 0 ≤ c ∧ c ≤ 1
          · have hnotr : ¬(¬(0 ≤ k ∧ k ≤ 39) ∨ ¬∀ c ∈ cs, 0 ≤ c ∧ c ≤ 1) := by tauto
            rw [verifyLines]
            simp only [if_neg hnb, hparts]
            by_cases h5 : (p0 :: toks).length = 5
            · left
              refine ⟨by rw [lineTokens, hparts]; exact h5, ?_⟩
              rw [if_pos h5, hk, hcs]
              dsimp only
              rw [if_neg hnotr]
            · right
              have h7 : 7 ≤ (p0 :: toks).length ∧ (p0 :: toks).length % 2 = 1 := by
                tauto
              refine ⟨by rw [lineTokens, hparts]; exact h7, ?_⟩
              rw [if_neg h5, if_pos h7, hk, hcs]
              dsimp only
              rw [if_neg hnotr]
          · rw [if_neg hr] at hpl; simp at hpl
  · rw [if_neg hcond] at hpl; simp at hpl

theorem verifyLines_cons_reject (l : List Char) (ls : List (List Char))
    (v : Bool) (o b p : Nat) (hnb : pyStrip l ≠ []) (hpl : processLine l = none) :
    verifyLines (l :: ls) v o b p = (false, o, b, p) := by
  rw [processLine_eq, if_neg hnb] at hpl
  rw [verifyLines]
  simp only [if_neg hnb]
  by_cases h5 : (pySplitWs (pyStrip l)).length = 5
  · rw [if_pos (Or.inl h5)] at hpl
    cases hparts : pySplitWs (pyStrip l) with
    | nil => rw [hparts] at h5; simp at h5
    | cons p0 toks =>
      rw [hparts] at hpl h5
      rw [if_pos h5]
      dsimp only
      rw [lineParse] at hpl
      cases hk : parseIntTok p0 with
      | none => rfl
      | some k =>
        rw [hk] at hpl
        cases hcs : parseFloats toks with
        | none => rfl
        | some cs =>
          rw [hcs] at hpl
          dsimp only at hpl ⊢
          by_cases hr : 0 ≤ k ∧ k ≤ 39 ∧ ∀ c ∈ cs, 0 ≤ c ∧ c ≤ 1
          · rw [if_pos hr] at hpl; simp at hpl
          · rw [if_pos (by tauto)]
  · by_cases h7 : 7 ≤ (pySplitWs (pyStrip l)).length ∧
        (pySplitWs (pyStrip l)).length % 2 = 1
    · rw [if_pos (Or.inr h7)] at hpl
      cases hparts : pySplitWs (pyStrip l) with
      | nil => rw [hparts] at h7; simp at h7
      | cons p0 toks =>
        rw [hparts] at hpl h5 h7
        rw [if_neg h5, if_pos h7]
        dsimp only
        rw [lineParse] at hpl
        cases hk : parseIntTok p0 with
        | none => rfl
        | some k =>
          rw [hk] at hpl
          cases hcs : parseFloats toks with
          | none => rfl
          | some cs =>
            rw [hcs] at hpl
            dsimp only at hpl ⊢
            by_cases hr : 0 ≤ k ∧ k ≤ 39 ∧ ∀ c ∈ cs, 0 ≤ c ∧ c ≤ 1
            · rw [if_pos hr] at hpl; simp at hpl
            · rw [if_pos (by tauto)]
    · rw [if_neg h5, if_neg h7]

theorem not_isEmpty_of_ne (s : List Char) (h : s ≠ []) : s.isEmpty = false := by
  cases s with
  | nil => exact absurd rfl h
  | cons a t => rfl

theorem processLine_blank (l : List Char) (h : pyStrip l = []) : processLine l = none := by
  rw [processLine_eq, if_pos h]

theorem verifyLines_all_acc (ls : List (List Char))
    (h : ∀ l ∈ ls, pyStrip l = [] ∨ (processLine l).isSome = true) :
    ∀ v o b p, verifyLines ls v o b p =
      (v, o + countNonBlank ls, b + countBoxAcc ls, p + countPolyAcc ls) := by
  induction ls with
  | nil =>
    intro v o b p
    simp [verifyLines, countNonBlank, countBoxAcc, countPolyAcc]
  | cons l rest ih =>
    intro v o b p
    have hrest := fun x hx => h x (List.mem_cons_of_mem l hx)
    rcases h l (List.mem_cons_self _ _) with hb | hacc
    · rw [verifyLines_cons_blank _ _ _ _ _ _ hb, ih hrest]
      have hbE : (pyStrip l).isEmpty = true := by rw [hb]; rfl
      simp [countNonBlank, countBoxAcc, countPolyAcc, List.countP_cons, hbE]
    · obtain ⟨out, hout⟩ := Option.isSome_iff_exists.mp hacc
      have hnb : pyStrip l ≠ [] := by
        intro hh
        rw [processLine_blank l hh] at hout
        cases hout
      have e0 := not_isEmpty_of_ne _ hnb
      rcases verifyLines_cons_accept l rest v o b p out hnb hout with ⟨h5, heq⟩ | ⟨h7, heq⟩
      · rw [heq, ih hrest]
        have h5v : ((lineTokens l).length == 5) = true := by simp [h5]
        have h7v : (decide (7 ≤ (lineTokens l).length)) = false := by
          rw [h5]; decide
        simp [countNonBlank, countBoxAcc, countPolyAcc, List.countP_cons, e0, h5v, h7v, hacc]
        omega
      · rw [heq, ih hrest]
        have h5v : ((lineTokens l).length == 5) = false := by
          have hne : (lineTokens l).length ≠ 5 := by omega
          simpa using hne
        have h7v : (decide (7 ≤ (lineTokens l).length)) = true := by simp [h7.1]
        have h2v : ((lineTokens l).length % 2 == 1) = true := by simp [h7.2]
        simp [countNonBlank, countBoxAcc, countPolyAcc, List.countP_cons, e0, h5v, h7v,
          h2v, hacc]
        omega

theorem verifyLines_valid_iff (ls : List (List Char)) :
    ∀ o b p, (verifyLines ls true o b p).1 = true ↔
      ∀ l ∈ ls, pyStrip l = [] ∨ (processLine l).isSome = true := by
  induction ls with
  | nil => intro o b p; simp [verifyLines]
  | cons l rest ih =>
    intro o b p
    by_cases hb : pyStrip l = []
    · rw [verifyLines_cons_blank _ _ _ _ _ _ hb, ih]
      simp [hb]
    · by_cases hacc : (processLine l).isSome = true
      · obtain ⟨out, hout⟩ := Option.isSome_iff_exists.mp hacc
        rcases verifyLines_cons_accept l rest true o b p out hb hout with ⟨-, heq⟩ | ⟨-, heq⟩ <;>
          · rw [heq, ih]
            simp [hacc]
      · have hnone : processLine l = none := by
          cases hres : processLine l with
          | none => rfl
          | some out => rw [hres] at hacc; simp at hacc
        rw [verifyLines_cons_reject _ _ _ _ _ _ hb hnone]
        simp only [List.mem_cons, Bool.false_eq_true, false_iff]
        intro hall
        rcases hall l (Or.inl rfl) with hh | hh
        · exact hb hh
        · exact hacc hh

theorem countNonBlank_pos_iff (ls : List (List Char)) :
    0 < countNonBlank ls ↔ ∃ l ∈ ls, pyStrip l ≠ [] := by
  rw [countNonBlank, List.countP_pos_iff]
  constructor
  · rintro ⟨l, hl, hp⟩
    refine ⟨l, hl, ?_⟩
    intro hh
    rw [hh] at hp
    simp at hp
  · rintro ⟨l, hl, hp⟩
    exact ⟨l, hl, by simp [not_isEmpty_of_ne _ hp]⟩

/-- Recognized token count for the first segment of an already-correct file. -/
abbrev recognizedCount (n : Nat) : Prop :=
  n = 5 ∨ (7 ≤ n ∧ n % 2 = 1)

/-- Token count of the first newline segment of the stripped content, as the
already-correct check of the source reads it. -/
abbrev firstSegTokCount (raw : List Char) : Nat :=
  (pySplitWs (pyStrip ((pySplitNl (pyStrip raw)).headD []))).length

theorem classify_def (raw : List Char) : classify raw =
    (if pyStrip raw = [] then .empty
     else if 1 < (pySplitNl (pyStrip raw)).length ∧ recognizedCount (firstSegTokCount raw)
       then .wellFormed
     else .malformed) := rfl

theorem repairRun_def (raw : List Char) : repairRun raw =
    (if pyStrip raw = [] then (false, raw, RepairOutcome.emptyFile)
     else if repairLines raw = [] then (false, raw, RepairOutcome.noValidFound)
     else (true, renderFile (repairLines raw),
       RepairOutcome.fixed (repairLines raw).length)) := rfl

theorem repairLines_of_strip_nil (raw : List Char) (h : pyStrip raw = []) :
    repairLines raw = [] := by
  rw [repairLines, h]
  rfl

/-! Claim theorems and witnesses. -/

/-- Claim C1: classify returns Empty iff the content stripped of whitespace is
empty; WellFormed iff the stripped content splits on real newlines into more than
one segment and the first segment has exactly 5 whitespace tokens or an odd token
count of at least 7; Malformed otherwise. In particular a single-segment file is
never WellFormed regardless of its token count. -/
theorem spec_C1 (raw : List Char) :
    (classify raw = FileClass.empty ↔ pyStrip raw = []) ∧
    (classify raw = FileClass.wellFormed ↔
      (pyStrip raw ≠ [] ∧ 1 < (pySplitNl (pyStrip raw)).length ∧
        recognizedCount (firstSegTokCount raw))) ∧
    (classify raw = FileClass.malformed ↔
      (pyStrip raw ≠ [] ∧ ¬(1 < (pySplitNl (pyStrip raw)).length ∧
        recognizedCount (firstSegTokCount raw)))) ∧
    ((pySplitNl (pyStrip raw)).length ≤ 1 → classify raw ≠ FileClass.wellFormed) := by
  rw [classify_def]
  by_cases h0 : pyStrip raw = []
  · rw [if_pos h0]
    exact ⟨by simp [h0], by simp [h0], by simp [h0], fun _ => by decide⟩
  · rw [if_neg h0]
    by_cases hc : 1 < (pySplitNl (pyStrip raw)).length ∧
        recognizedCount (firstSegTokCount raw)
    · rw [if_pos hc]
      exact ⟨by simp [h0], by simp [h0, hc], by simp [hc], fun hlen => absurd hc.1 (by omega)⟩
    · rw [if_neg hc]
      exact ⟨by simp [h0], by simp [hc], by simp [h0, hc], fun _ => by decide⟩

theorem spec_C1_witness : classify "10 0.1 0.2 0.3 0.4\n".data ≠ FileClass.wellFormed :=
  (spec_C1 _).2.2.2 (by decide)

/-- Claim C2: a 5-token line is accepted iff its first token parses as an integer
in 0..39 and each of the four remaining tokens parses as a float in the closed
interval 0..1; a line that is discarded contributes nothing to the output and does
not abort the processing of the remaining lines. -/
theorem spec_C2 (line : List Char) :
    ((lineTokens line).length = 5 →
      ((processLine line).isSome = true ↔ acceptToks (lineTokens line) = true)) ∧
    (processLine line = none → ∀ pre post : List (List Char),
      (pre ++ line :: post).filterMap processLine =
        (pre ++ post).filterMap processLine) :=
  ⟨fun h => processLine_isSome_iff line (Or.inl h),
    fun h pre post => filterMap_skip line h pre post⟩

theorem spec_C2_witness :
    (lineTokens "10 0.5 0.5 0.5 0.5".data).length = 5 ∧
    (processLine "10 0.5 0.5 0.5 0.5".data).isSome = true ∧
    ¬(processLine "40 0.1 0.2 0.3 0.4".data).isSome = true :=
  ⟨by decide, ((spec_C2 _).1 (by decide)).mpr (by decide),
    fun h => absurd (((spec_C2 "40 0.1 0.2 0.3 0.4".data).1 (by decide)).mp h) (by decide)⟩

/-- Claim C3: a line with an odd whitespace token count of at least 7 is accepted
as a polygon iff its first token parses as an integer in 0..39 and every remaining
token parses as a float in 0..1; a line with any other token count (neither 5 nor
odd at least 7) is silently discarded. A valid 7-token line is accepted (a 3-point
polygon). -/
theorem spec_C3 (line : List Char) :
    ((7 ≤ (lineTokens line).length ∧ (lineTokens line).length % 2 = 1) →
      ((processLine line).isSome = true ↔ acceptToks (lineTokens line) = true)) ∧
    (¬(lineTokens line).length = 5 →
      ¬(7 ≤ (lineTokens line).length ∧ (lineTokens line).length % 2 = 1) →
      processLine line = none) :=
  ⟨fun h => processLine_isSome_iff line (Or.inr h), processLine_other_count line⟩

theorem spec_C3_witness :
    (lineTokens "4 0.02 0.42 0.28 0.41 0.31 0.40".data).length = 7 ∧
    (processLine "4 0.02 0.42 0.28 0.41 0.31 0.40".data).isSome = true ∧
    processLine "12 0.1 0.2 0.3".data = none :=
  ⟨by decide, ((spec_C3 _).1 (by decide)).mpr (by decide),
    (spec_C3 "12 0.1 0.2 0.3".data).2 (by decide) (by decide)⟩

/-- Claim C4: repair writes the file back iff at least one line was accepted
(outcome Fixed n, n at least 1, n the number of accepted lines, and the written
content is the rendered accepted lines); input empty after stripping yields
EmptyFile with no write; nonempty input with zero accepted lines yields
NoValidAnnotations with the on-disk content untouched. -/
theorem spec_C4 (raw : List Char) :
    ((repairRun raw).1 = true ↔ ∃ n, (repairRun raw).2.2 = RepairOutcome.fixed n ∧ 1 ≤ n) ∧
    (pyStrip raw = [] → repairRun raw = (false, raw, RepairOutcome.emptyFile)) ∧
    (pyStrip raw ≠ [] → repairLines raw = [] →
      repairRun raw = (false, raw, RepairOutcome.noValidFound)) ∧
    ((repairRun raw).1 = false → (repairRun raw).2.1 = raw) ∧
    (∀ n, (repairRun raw).2.2 = RepairOutcome.fixed n →
      n = (repairLines raw).length ∧ (repairRun raw).2.1 = renderFile (repairLines raw)) := by
  rw [repairRun_def]
  by_cases h0 : pyStrip raw = []
  · rw [if_pos h0]
    exact ⟨by simp, fun _ => rfl, fun hne _ => absurd h0 hne, fun _ => rfl,
      fun n hn => by simp at hn⟩
  · rw [if_neg h0]
    by_cases hls : repairLines raw = []
    · rw [if_pos hls]
      exact ⟨by simp, fun hh => absurd hh h0, fun _ _ => rfl, fun _ => rfl,
        fun n hn => by simp at hn⟩
    · rw [if_neg hls]
      have hpos : 1 ≤ (repairLines raw).length := by
        cases hrl : repairLines raw with
        | nil => exact absurd hrl hls
        | cons a t => simp
      refine ⟨by simp [hpos], fun hh => absurd hh h0, fun _ hh => absurd hh hls,
        fun hh => by simp at hh, fun n hn => ?_⟩
      simp only [RepairOutcome.fixed.injEq] at hn
      exact ⟨hn.symm, rfl⟩

theorem spec_C4_witness :
    repairRun "  ".data = (false, "  ".data, RepairOutcome.emptyFile) ∧
    repairRun "junk".data = (false, "junk".data, RepairOutcome.noValidFound) ∧
    (repairRun "10 0.1 0.2 0.3 0.4".data).1 = true :=
  ⟨(spec_C4 _).2.1 (by decide), (spec_C4 _).2.2.1 (by decide) (by decide),
    (spec_C4 _).1.mpr ⟨1, by decide, le_rfl⟩⟩

/-- Claim C5 counterexample: a readable file whose repair finds no valid line (a
pure validation failure, no exception raised) is nevertheless counted in the
errors bucket by the walk of fix_all_labels, because the message string of this
failure does not contain the text matched by the empty-file branch. -/
theorem spec_C5_cex :
    (fixLabelFormat "40 0.1 0.2 0.3 0.4".data).2.2 = FixOutcome.noValidFound ∧
    fileBucket (FileInput.readable "40 0.1 0.2 0.3 0.4".data) = StatBucket.errors := by
  constructor
  · decide
  · decide

/-- Claim C5 amended: the errors counter of fix_all_labels counts both the files
whose read raised an exception (whenever the exception text does not contain the
substring matched by the empty-file branch) and the readable files whose repair
found no valid line; it is not limited to exceptions. -/
theorem spec_C5_amended :
    (∀ raw : List Char, fileBucket (FileInput.readable raw) = StatBucket.errors ↔
      (fixLabelFormat raw).2.2 = FixOutcome.noValidFound) ∧
    (∀ e : List Char, containsSub "Empty file".data ("Error: ".data ++ e) = false →
      fileBucket (FileInput.unreadable e) = StatBucket.errors) := by
  constructor
  · intro raw
    rw [fileBucket, fileResult, fixResult]
    cases hout : (fixLabelFormat raw).2.2 with
    | emptyFile => decide
    | alreadyCorrect => decide
    | noValidFound => decide
    | fixed n =>
      dsimp only
      rw [bucketOf]
      constructor
      · intro hh
        rw [if_pos rfl] at hh
        split at hh <;> cases hh
      · intro hh
        cases hh
  · intro e he
    have he' : containsSub "Empty file".data
        ('E' :: 'r' :: 'r' :: 'o' :: 'r' :: ':' :: ' ' :: e) = false := he
    rw [fileBucket, fileResult, bucketOf]
    rw [if_neg (by simp), if_neg (by simp [he'])]

theorem spec_C5_amended_witness :
    fileBucket (FileInput.readable "junk".data) = StatBucket.errors ∧
    fileBucket (FileInput.unreadable "Permission denied".data) = StatBucket.errors :=
  ⟨(spec_C5_amended.1 "junk".data).mpr (by decide),
    spec_C5_amended.2 "Permission denied".data (by decide)⟩

/-- Claim C6: repair replaces every literal two-character backslash-n sequence
with a real newline and then splits on real newlines, so the one-physical-line
input with a literal backslash-n repairs to exactly the two expected 6-decimal
lines, written back as Fixed 2. -/
theorem spec_C6 :
    pyReplaceEscNl (pyStrip "10 0.1 0.2 0.3 0.4\\n12 0.5 0.5 0.1 0.1".data) =
      "10 0.1 0.2 0.3 0.4\n12 0.5 0.5 0.1 0.1".data ∧
    repairLines "10 0.1 0.2 0.3 0.4\\n12 0.5 0.5 0.1 0.1".data =
      ["10 0.100000 0.200000 0.300000 0.400000".data,
       "12 0.500000 0.500000 0.100000 0.100000".data] ∧
    (repairRun "10 0.1 0.2 0.3 0.4\\n12 0.5 0.5 0.1 0.1".data).2.2 =
      RepairOutcome.fixed 2 := by
  refine ⟨by decide, by decide, by decide⟩

/-- Claim C7: every accepted line serializes as the class id rendered as a plain
integer token followed by each coordinate at fixed 6-decimal precision, all
space-separated; the written file is the accepted lines joined with single
newlines plus exactly one trailing newline (splitting the written content on
newlines returns the lines plus one final empty segment, and no accepted line is
empty). -/
theorem spec_C7 (raw : List Char) :
    (∀ out ∈ repairLines raw, ∃ k cs, 0 ≤ k ∧ k ≤ 39 ∧ cs ≠ ([] : List ℚ) ∧
      out = renderLine k cs ∧
      pySplitWs out = intToChars k :: cs.map fmt6 ∧
      ∀ q ∈ cs, ∃ ip fr, fmt6 q = ip ++ '.' :: fr ∧ fr.length = 6 ∧
        (∀ c ∈ ip, isDig c = true) ∧ (∀ c ∈ fr, isDig c = true)) ∧
    (repairLines raw ≠ [] →
      (repairRun raw).2.1 = joinNl (repairLines raw) ++ ['\n'] ∧
      pySplitNl ((repairRun raw).2.1) = repairLines raw ++ [[]] ∧
      ([] : List Char) ∉ repairLines raw) := by
  constructor
  · intro out hout
    obtain ⟨k, cs, hk0, hk39, hcs, hlen, rfl⟩ := repairLines_shape raw out hout
    refine ⟨k, cs, hk0, hk39, ?_, rfl, renderLine_tokens k cs hk0, ?_⟩
    · intro hnil
      rw [hnil] at hlen
      simp at hlen
    · intro q hq
      obtain ⟨ip, fr, heq, -, hlen6, hipd, hfrd⟩ := fmt6_shape q
      exact ⟨ip, fr, heq, hlen6, hipd, hfrd⟩
  · intro hne
    have hsh := repairLines_shape raw
    have h0 : pyStrip raw ≠ [] := fun hh => hne (repairLines_of_strip_nil raw hh)
    have h21 : (repairRun raw).2.1 = renderFile (repairLines raw) := by
      rw [repairRun_def, if_neg h0, if_neg hne]
    have hnl : ∀ l ∈ repairLines raw, ∀ c ∈ l, c ≠ '\n' :=
      fun l hl => line_chars_no_nl l (hsh l hl)
    refine ⟨h21, ?_, ?_⟩
    · rw [h21, renderFile]
      exact pySplitNl_joinNl_concat _ hne hnl
    · intro hmem
      exact (shape_facts _ (hsh _ hmem)).1 rfl

theorem spec_C7_witness :
    (repairRun "10 0.1 0.2 0.3 0.4".data).2.1 =
      joinNl (repairLines "10 0.1 0.2 0.3 0.4".data) ++ ['\n'] ∧
    pySplitNl ((repairRun "10 0.1 0.2 0.3 0.4".data).2.1) =
      repairLines "10 0.1 0.2 0.3 0.4".data ++ [[]] :=
  ⟨((spec_C7 _).2 (by decide)).1, ((spec_C7 _).2 (by decide)).2.1⟩

/-- Claim C8: for any content classified WellFormed, repair is idempotent as a
content transformer: a second application of repair to the written result
produces the identical on-disk content. -/
theorem spec_C8 (raw : List Char) (_h : classify raw = FileClass.wellFormed) :
    repairText (repairText raw) = repairText raw :=
  repairText_idem raw

theorem spec_C8_witness :
    classify "10 0.1 0.2 0.3 0.4\n12 0.5 0.5 0.1 0.1".data = FileClass.wellFormed ∧
    repairText (repairText "10 0.1 0.2 0.3 0.4\n12 0.5 0.5 0.1 0.1".data) =
      repairText "10 0.1 0.2 0.3 0.4\n12 0.5 0.5 0.1 0.1".data :=
  ⟨by decide, spec_C8 _ (by decide)⟩

/-- Claim C9: verify re-validates every line with the same per-line acceptance
rule as repair (the flag is true iff every non-blank line is accepted by that
rule), produces per-file counts of accepted box and accepted polygon lines, and
the reported fileValid is true iff every non-blank line passed and at least one
non-blank line was present. -/
theorem spec_C9 (content : List Char) (v : Bool) (o b p : Nat)
    (h : verifyFile content = some (v, o, b, p)) :
    (v = true ↔ ∀ l ∈ pyReadlines content,
      pyStrip l = [] ∨ (processLine l).isSome = true) ∧
    (v = true → o = countNonBlank (pyReadlines content) ∧
      b = countBoxAcc (pyReadlines content) ∧ p = countPolyAcc (pyReadlines content)) ∧
    (fileValidOf (v, o, b, p) = true ↔
      ((∀ l ∈ pyReadlines content, pyStrip l ≠ [] → (processLine l).isSome = true) ∧
        ∃ l ∈ pyReadlines content, pyStrip l ≠ [])) := by
  rw [verifyFile] at h
  by_cases hl : pyReadlines content = []
  · rw [if_pos hl] at h
    cases h
  · rw [if_neg hl] at h
    simp only [Option.some.injEq] at h
    have hv : v = (verifyLines (pyReadlines content) true 0 0 0).1 := by rw [h]
    have hval : v = true ↔ ∀ l ∈ pyReadlines content,
        pyStrip l = [] ∨ (processLine l).isSome = true := by
      rw [hv]
      exact verifyLines_valid_iff (pyReadlines content) 0 0 0
    have hcounts : v = true → o = countNonBlank (pyReadlines content) ∧
        b = countBoxAcc (pyReadlines content) ∧
        p = countPolyAcc (pyReadlines content) := by
      intro hvt
      have hall := hval.mp hvt
      have hacc := verifyLines_all_acc (pyReadlines content) hall true 0 0 0
      rw [hacc] at h
      simp only [Prod.mk.injEq] at h
      obtain ⟨-, h2, h3, h4⟩ := h
      exact ⟨by omega, by omega, by omega⟩
    refine ⟨hval, hcounts, ?_⟩
    rw [fileValidOf]
    simp only [Bool.and_eq_true, decide_eq_true_eq]
    constructor
    · rintro ⟨hvt, hopos⟩
      have hall := hval.mp hvt
      refine ⟨fun l hl' hnb => ?_, ?_⟩
      · rcases hall l hl' with hh | hh
        · exact absurd hh hnb
        · exact hh
      · have ho := (hcounts hvt).1
        rw [ho] at hopos
        exact (countNonBlank_pos_iff _).mp hopos
    · rintro ⟨hacc, hex⟩
      have hall : ∀ l ∈ pyReadlines content,
          pyStrip l = [] ∨ (processLine l).isSome = true := by
        intro l hl'
        by_cases hb : pyStrip l = []
        · exact Or.inl hb
        · exact Or.inr (hacc l hl' hb)
      have hvt : v = true := hval.mpr hall
      refine ⟨hvt, ?_⟩
      have ho := (hcounts hvt).1
      rw [ho]
      exact (countNonBlank_pos_iff _).mpr hex

theorem spec_C9_witness :
    fileValidOf (true, 1, 1, 0) = true ∧
    (∀ l ∈ pyReadlines "0 0.100000 0.200000 0.300000 0.400000\n".data,
      pyStrip l = [] ∨ (processLine l).isSome = true) :=
  ⟨by decide,
    (spec_C9 "0 0.100000 0.200000 0.300000 0.400000\n".data true 1 1 0 (by decide)).1.mp rfl⟩

/-- Claim C10: when repair accepts exactly one line, the rewritten single-line
file content is classified Malformed on a subsequent run (more than one segment
is required to count as already correct), and the subsequent run rewrites the
file with byte-identical content, reporting Fixed 1 again and never
already-correct. -/
theorem spec_C10 (raw out : List Char) (h : repairLines raw = [out]) :
    classify (renderFile [out]) = FileClass.malformed ∧
    fixLabelFormat (renderFile [out]) =
      (true, renderFile [out], FixOutcome.fixed 1) := by
  have hshape : LineShape out :=
    repairLines_shape raw out (by rw [h]; exact List.mem_cons_self _ _)
  obtain ⟨hne, hhead, hlast, hchars, hproc⟩ := shape_facts out hshape
  have hnl : ∀ c ∈ out, c ≠ '\n' := line_chars_no_nl out hshape
  have hbs : ∀ c ∈ out, c ≠ '\\' := by
    intro c hc
    rcases hchars c hc with hd | rfl | rfl
    · exact (isDig_facts c hd).2.1
    · decide
    · decide
  have hrf : renderFile [out] = out ++ ['\n'] := rfl
  have hstrip : pyStrip (renderFile [out]) = out := by
    rw [hrf]
    exact pyStrip_append_nl out hne (fun c hc => (isDig_facts c (hhead c hc)).1)
      (fun c hc => (isDig_facts c (hlast c hc)).1)
  have hsplit : pySplitNl out = [out] := pySplitNl_no_nl out hnl
  have hclass : classify (renderFile [out]) = FileClass.malformed := by
    rw [classify_def, if_neg (by rw [hstrip]; exact hne), if_neg]
    intro hcond
    have hc1 := hcond.1
    rw [hstrip, hsplit] at hc1
    simp at hc1
  have hrl : repairLines (renderFile [out]) = [out] := by
    rw [repairLines, hstrip, pyReplaceEscNl_id out hbs, hsplit]
    simp [List.filterMap_cons, hproc]
  refine ⟨hclass, ?_⟩
  rw [fixLabelFormat, hclass]
  dsimp only
  rw [hrl]
  simp

theorem spec_C10_witness :
    repairLines "5 0.1 0.2 0.3 0.4".data =
      ["5 0.100000 0.200000 0.300000 0.400000".data] ∧
    fixLabelFormat (renderFile ["5 0.100000 0.200000 0.300000 0.400000".data]) =
      (true, renderFile ["5 0.100000 0.200000 0.300000 0.400000".data],
        FixOutcome.fixed 1) :=
  ⟨by decide, (spec_C10 "5 0.1 0.2 0.3 0.4".data _ (by decide)).2⟩

example : pyStrip "  ab ".data = ['a', 'b'] := by decide

example : pySplitWs "  10  0.5 ".data = [['1', '0'], ['0', '.', '5']] := by decide

example : parseFloatTok "0.5".data = some (mkRat 5 10) := by decide

example : fmt6 (mkRat 1 10) = "0.100000".data := by decide

example : processLine "10 0.1 0.2 0.3 0.4".data =
    some "10 0.100000 0.200000 0.300000 0.400000".data := by decide

example : processLine "40 0.1 0.2 0.3 0.4".data = none := by decide

example : repairLines "10 0.1 0.2 0.3 0.4\\n12 0.5 0.5 0.1 0.1".data =
    ["10 0.100000 0.200000 0.300000 0.400000".data,
     "12 0.500000 0.500000 0.100000 0.100000".data] := by decide

example : classify "10 0.1 0.2 0.3 0.4\njunk".data = .wellFormed := by decide

example : verifyFile "0 0.100000 0.200000 0.300000 0.400000\n".data =
    some (true, 1, 1, 0) := by decide

end LabelFix
